import Mathlib

/-!
Verification development for the Redis-backed session auth-state store.

The TypeScript sources are shallowly embedded: classes become structures,
mutable fields become explicit state passing, JavaScript `Promise`
resolutions become an explicit `Resolution` outcome type, and the Redis
transport becomes a function parameter or an explicit store map.
JavaScript numbers that hold timestamps, TTLs and sizes are modelled as
`Nat`; JSON numbers are modelled as `Int` (the values handled by this
library are structures, strings and byte arrays).
-/

/-! ## Connection pool (class RedisConnectionPool)

Connections are identified by `Nat` ids.  `connections`, `availableConnections`
are arrays (push appends, `Array.pop` removes the last element);
`usedConnections` is a `Set` (modelled as a duplicate-free list via
`List.insert` / `List.erase`).  `createRedisClient` is external: the fresh
client it would produce is passed in as the `fresh` argument. -/

structure RedisConnectionPool where
  connections : List Nat
  availableConnections : List Nat
  usedConnections : List Nat
deriving Repr, DecidableEq

/-- `getConnection`: if an available connection exists, pop it (from the end of
the array), mark it used and return it; otherwise create and return a
temporary (ad hoc) client that is not recorded in any of the pool's sets. -/
def RedisConnectionPool.getConnection (pool : RedisConnectionPool) (fresh : Nat) :
    Nat × RedisConnectionPool :=
  match pool.availableConnections.getLast? with
  | some conn =>
      (conn, { pool with
                availableConnections := pool.availableConnections.dropLast,
                usedConnections := pool.usedConnections.insert conn })
  | none => (fresh, pool)

/-- `releaseConnection`: only a connection currently in `usedConnections` is
moved back to `availableConnections`; anything else is a no-op. -/
def RedisConnectionPool.releaseConnection (pool : RedisConnectionPool) (connection : Nat) :
    RedisConnectionPool :=
  if connection ∈ pool.usedConnections then
    { pool with
        usedConnections := pool.usedConnections.erase connection,
        availableConnections := pool.availableConnections ++ [connection] }
  else pool

/-! ## Batch manager (class BatchManager in utils.ts)

`addOperation` pushes the operation, flushes synchronously when the queue
length reaches `batchSize`, and otherwise arms the 10 ms timer if it is not
armed.  `flush` disarms the timer, takes the whole queue and resolves it as
one batch.  The `flushed` field records the successive flushed batches (the
observable flush events); `flushTimer` records whether the timeout is armed. -/

structure BMOp where
  type : String
  key : String
  value : Option String
deriving Repr, DecidableEq

structure BatchManager where
  operations : List BMOp
  batchSize : Nat
  flushTimer : Bool
  flushed : List (List BMOp)
deriving Repr, DecidableEq

/-- `flush`: clear the timer; if the queue is empty do nothing more; otherwise
splice out the entire queue as one flushed batch. -/
def BatchManager.flush (st : BatchManager) : BatchManager :=
  let st1 := { st with flushTimer := false }
  if st1.operations = [] then st1
  else { st1 with operations := [], flushed := st1.flushed ++ [st1.operations] }

/-- `addOperation`: push, then flush if the queue reached `batchSize`,
else arm the 10 ms timer if not armed. -/
def BatchManager.addOperation (st : BatchManager) (op : BMOp) : BatchManager :=
  let st1 := { st with operations := st.operations ++ [op] }
  if st1.batchSize ≤ st1.operations.length then st1.flush
  else if st1.flushTimer = false then { st1 with flushTimer := true }
  else st1

/-- The 10 ms timeout firing runs `flush`. -/
def BatchManager.timerFire (st : BatchManager) : BatchManager :=
  st.flush

/-- A sequence of sequential `addOperation` calls. -/
def BatchManager.runAdds (st : BatchManager) (ops : List BMOp) : BatchManager :=
  ops.foldl BatchManager.addOperation st

/-- A batch manager as freshly constructed with a given batch size. -/
def BatchManager.mk0 (batchSize : Nat) : BatchManager :=
  ⟨[], batchSize, false, []⟩

/-! ## Batch executor (class BatchOperationManager.executeBatch)

The pipeline is the ordered command list built from the operations; the
transport (`redis.multi(...).exec()`) is a function from that command list to
either a per-command result list or a connection-level failure.  Each
per-command result is the `[err, value]` pair the client returns.  A pending
operation's promise outcome is a `Resolution`. -/

inductive RedisCmd where
  | get (key : String)
  | set (key : String) (value : Option String)
  | del (key : String)
deriving Repr, DecidableEq

inductive RedisReply where
  | nil
  | str (s : String)
  | int (n : Nat)
deriving Repr, DecidableEq

structure CmdResult where
  err : Option String
  reply : RedisReply
deriving Repr, DecidableEq

inductive ExecOutcome where
  | ok (results : List CmdResult)
  | failed (e : String)
deriving Repr, DecidableEq

inductive JsRes where
  | reply (r : RedisReply)
  | boolTrue
deriving Repr, DecidableEq

inductive Resolution where
  | resolved (v : JsRes)
  | rejected (e : String)
deriving Repr, DecidableEq

structure BatchOp where
  type : String
  key : String
  value : Option String
deriving Repr, DecidableEq

/-- The pipeline built by the first loop of `executeBatch`: one command per
operation, in submission order. -/
def buildPipeline (ops : List BatchOp) : List RedisCmd :=
  ops.map fun op =>
    if op.type = "get" then RedisCmd.get op.key
    else if op.type = "set" then RedisCmd.set op.key op.value
    else RedisCmd.del op.key

/-- The result-walking loop of `executeBatch`: `getIndex` counts only `get`
operations, yet indexes into the full per-command result array.  A `get`
resolves with `results[getIndex][1]` (or rejects with `results[getIndex][0]`);
every other operation resolves with `true`. -/
def demuxResults : List BatchOp → Nat → List CmdResult → List Resolution
  | [], _, _ => []
  | op :: rest, getIndex, results =>
    if op.type = "get" then
      let r := results.getD getIndex ⟨none, RedisReply.nil⟩
      (match r.err with
       | some e => Resolution.rejected e
       | none => Resolution.resolved (JsRes.reply r.reply)) ::
        demuxResults rest (getIndex + 1) results
    else
      Resolution.resolved JsRes.boolTrue :: demuxResults rest getIndex results

/-- `executeBatch`: empty batches return nothing; otherwise execute the
pipeline; on success walk the results, on a thrown connection-level error
reject every operation with that error. -/
def executeBatch (exec : List RedisCmd → ExecOutcome) (ops : List BatchOp) :
    List Resolution :=
  if ops = [] then []
  else
    match exec (buildPipeline ops) with
    | ExecOutcome.ok results => demuxResults ops 0 results
    | ExecOutcome.failed e => ops.map fun _ => Resolution.rejected e

/-- Reference sequential semantics of one `multi().exec()` round trip against
a store: each command yields one `[err, value]` entry, in order (`get` the
current value, `set` "OK" and an update, `del` the removed count). -/
def runCmds : (String → Option String) → List RedisCmd → List CmdResult × (String → Option String)
  | store, [] => ([], store)
  | store, RedisCmd.get k :: cs =>
      let r := match store k with
        | some v => CmdResult.mk none (RedisReply.str v)
        | none => CmdResult.mk none RedisReply.nil
      let rest := runCmds store cs
      (r :: rest.1, rest.2)
  | store, RedisCmd.set k v :: cs =>
      let store' := fun x => if x = k then some (v.getD "") else store x
      let rest := runCmds store' cs
      (CmdResult.mk none (RedisReply.str "OK") :: rest.1, rest.2)
  | store, RedisCmd.del k :: cs =>
      let n := if (store k).isSome then 1 else 0
      let store' := fun x => if x = k then none else store x
      let rest := runCmds store' cs
      (CmdResult.mk none (RedisReply.int n) :: rest.1, rest.2)

/-- A transport that executes the pipeline against a concrete store and
returns the ordered per-command results. -/
def execOnStore (store : String → Option String) (cmds : List RedisCmd) : ExecOutcome :=
  ExecOutcome.ok (runCmds store cmds).1

/-! ## Claims C7, C5, C4, C1 -/

/-- C7: pool acquisition on an exhausted pool returns the externally created
ad hoc connection and leaves the pool's bookkeeping (all three sets)
unchanged; releasing a connection that is not currently checked out is a
no-op on the whole pool state. -/
theorem pool_exhausted_adhoc_and_release_noop :
    (∀ (pool : RedisConnectionPool) (fresh : Nat),
        pool.availableConnections = [] →
          (pool.getConnection fresh).1 = fresh ∧ (pool.getConnection fresh).2 = pool) ∧
    (∀ (pool : RedisConnectionPool) (c : Nat),
        c ∉ pool.usedConnections → pool.releaseConnection c = pool) := by
  constructor
  · intro pool fresh h
    simp [RedisConnectionPool.getConnection, h]
  · intro pool c h
    simp [RedisConnectionPool.releaseConnection, h]

/-- Witness for C7 at concrete pools: an exhausted pool with one checked-out
connection hands out the fresh ad hoc id 9 untouched, and releasing the
never-acquired id 3 changes nothing. -/
theorem pool_exhausted_adhoc_and_release_noop_witness :
    ((RedisConnectionPool.mk [5] [] [5]).getConnection 9).1 = 9 ∧
    ((RedisConnectionPool.mk [5] [] [5]).getConnection 9).2 = RedisConnectionPool.mk [5] [] [5] ∧
    (RedisConnectionPool.mk [5] [4] [5]).releaseConnection 3 = RedisConnectionPool.mk [5] [4] [5] := by
  refine ⟨?_, ?_, ?_⟩
  · exact (pool_exhausted_adhoc_and_release_noop.1 (RedisConnectionPool.mk [5] [] [5]) 9 rfl).1
  · exact (pool_exhausted_adhoc_and_release_noop.1 (RedisConnectionPool.mk [5] [] [5]) 9 rfl).2
  · exact pool_exhausted_adhoc_and_release_noop.2 (RedisConnectionPool.mk [5] [4] [5]) 3 (by decide)

/-- Below-threshold adds only accumulate and arm the timer. -/
theorem BatchManager.runAdds_below (ops : List BMOp) :
    ∀ st : BatchManager, st.operations.length + ops.length < st.batchSize →
      st.runAdds ops =
        { st with operations := st.operations ++ ops,
                  flushTimer := st.flushTimer || !ops.isEmpty } := by
  induction ops with
  | nil => intro st _; simp [BatchManager.runAdds]
  | cons op rest ih =>
      intro st h
      simp only [List.length_cons] at h
      have hlt : st.operations.length + 1 < st.batchSize := by omega
      have hadd : st.addOperation op =
          { st with operations := st.operations ++ [op], flushTimer := true } := by
        simp only [BatchManager.addOperation, List.length_append, List.length_cons,
          List.length_nil]
        rw [if_neg (by omega)]
        by_cases htimer : st.flushTimer = false
        · simp [htimer]
        · simp only [htimer, if_neg]
          have : st.flushTimer = true := by
            revert htimer; cases st.flushTimer <;> simp
          simp [this]
      have := ih { st with operations := st.operations ++ [op], flushTimer := true }
        (by simp; omega)
      simp only [BatchManager.runAdds, List.foldl_cons] at *
      rw [hadd, this]
      cases rest with
      | nil => simp
      | cons r rs => simp

/-- The add that makes the queue reach `batchSize` flushes exactly the queue. -/
theorem BatchManager.addOperation_threshold (st : BatchManager) (op : BMOp)
    (h : st.operations.length + 1 = st.batchSize) :
    st.addOperation op =
      { st with operations := [], flushTimer := false,
                flushed := st.flushed ++ [st.operations ++ [op]] } := by
  simp only [BatchManager.addOperation, BatchManager.flush, List.length_append,
    List.length_cons, List.length_nil]
  rw [if_pos (by omega)]
  simp

theorem BatchManager.runAdds_append (st : BatchManager) (l1 l2 : List BMOp) :
    st.runAdds (l1 ++ l2) = (st.runAdds l1).runAdds l2 := by
  simp [BatchManager.runAdds, List.foldl_append]

/-- C5 amended: for `batchSize ≤ N < 2 * batchSize` sequential enqueues from a
fresh manager, the single flush contains exactly the first `batchSize`
operations in order, the remaining ones accumulate in a fresh queue whose
timer is armed exactly when operations remain, and the 10 ms timer then
flushes that sub-threshold remainder. -/
theorem batchManager_window (bs : Nat) (ops : List BMOp)
    (h1 : bs ≤ ops.length) (h2 : ops.length < 2 * bs) :
    ((BatchManager.mk0 bs).runAdds ops).flushed = [ops.take bs] ∧
    ((BatchManager.mk0 bs).runAdds ops).operations = ops.drop bs ∧
    (((BatchManager.mk0 bs).runAdds ops).flushTimer = true ↔ bs < ops.length) ∧
    (bs < ops.length →
      (((BatchManager.mk0 bs).runAdds ops).timerFire).flushed =
        [ops.take bs, ops.drop bs]) := by
  have hbs : 0 < bs := by omega
  have hsplit : ops = ops.take bs ++ ops.drop bs := (List.take_append_drop bs ops).symm
  have hlen : (ops.take bs).length = bs := List.length_take_of_le h1
  obtain ⟨front, last, hfl⟩ : ∃ front last, ops.take bs = front ++ [last] := by
    rcases List.eq_nil_or_concat (ops.take bs) with hc | ⟨L, b, hc⟩
    · rw [hc] at hlen; simp at hlen; omega
    · exact ⟨L, b, by simpa [List.concat_eq_append] using hc⟩
  have hfront : front.length + 1 = bs := by
    have := hlen; rw [hfl] at this; simpa using this
  have hrun1 : (BatchManager.mk0 bs).runAdds front =
      BatchManager.mk front bs (!front.isEmpty) [] := by
    have := BatchManager.runAdds_below front (BatchManager.mk0 bs)
      (by simp [BatchManager.mk0]; omega)
    simpa [BatchManager.mk0] using this
  have hrun2 : (BatchManager.mk0 bs).runAdds (front ++ [last]) =
      BatchManager.mk [] bs false [front ++ [last]] := by
    rw [BatchManager.runAdds_append, hrun1]
    have := BatchManager.addOperation_threshold
      (BatchManager.mk front bs (!front.isEmpty) []) last (by simpa using hfront)
    simp only [BatchManager.runAdds, List.foldl_cons, List.foldl_nil]
    rw [this]
    simp
  have hdroplen : (ops.drop bs).length < bs := by
    have := List.length_drop bs ops
    omega
  have hrun3 : (BatchManager.mk0 bs).runAdds ops =
      BatchManager.mk (ops.drop bs) bs (!(ops.drop bs).isEmpty) [ops.take bs] := by
    conv_lhs => rw [hsplit]
    rw [BatchManager.runAdds_append, hfl, hrun2]
    have := BatchManager.runAdds_below (ops.drop bs)
      (BatchManager.mk [] bs false [front ++ [last]]) (by simpa using hdroplen)
    rw [this]
    simp [← hfl]
  rw [hrun3]
  have hnil : ops.drop bs = [] ↔ ops.length ≤ bs := by
    constructor
    · intro h
      have := List.length_drop bs ops
      rw [h] at this; simp at this; omega
    · intro h
      apply List.eq_nil_of_length_eq_zero
      rw [List.length_drop]; omega
  refine ⟨rfl, rfl, ?_, ?_⟩
  · constructor
    · intro h
      by_contra hc
      push_neg at hc
      rw [hnil.2 (by omega)] at h
      simp at h
    · intro h
      cases hd : ops.drop bs with
      | nil => exact absurd (hnil.1 hd) (by omega)
      | cons a l => simp
  · intro h
    have hne : ops.drop bs ≠ [] := fun hc => absurd (hnil.1 hc) (by omega)
    simp [BatchManager.timerFire, BatchManager.flush, hne]

/-- C5 witness: batchSize 2 and three adds give one flush of the first two
operations in order; the third waits in a fresh queue with an armed timer,
and the timer flush delivers it. -/
theorem batchManager_window_witness :
    (((BatchManager.mk0 2).runAdds [⟨"get", "a", none⟩, ⟨"set", "b", some "1"⟩, ⟨"del", "c", none⟩]).flushed
        = [[⟨"get", "a", none⟩, ⟨"set", "b", some "1"⟩]]) ∧
    (((BatchManager.mk0 2).runAdds [⟨"get", "a", none⟩, ⟨"set", "b", some "1"⟩, ⟨"del", "c", none⟩]).operations
        = [⟨"del", "c", none⟩]) := by
  have h := batchManager_window 2
    [⟨"get", "a", none⟩, ⟨"set", "b", some "1"⟩, ⟨"del", "c", none⟩]
    (by decide) (by decide)
  exact ⟨h.1, h.2.1⟩

/-- C5 counterexample to the claim as stated: with batchSize 1 and N = 2 ≥
batchSize sequential enqueues, two flushes are triggered, not exactly one;
the remaining operation does not stay queued. -/
theorem batchManager_two_flushes :
    (((BatchManager.mk0 1).runAdds [⟨"get", "a", none⟩, ⟨"get", "b", none⟩]).flushed
        = [[⟨"get", "a", none⟩], [⟨"get", "b", none⟩]]) ∧
    [[BMOp.mk "get" "a" none], [BMOp.mk "get" "b" none]] ≠ [[BMOp.mk "get" "a" none]] := by
  constructor
  · rfl
  · decide

/-- C4: if the transport's exec itself fails for a flush, `executeBatch`
rejects every operation of that flush with that same error: the outcome list
rejects each operation one for one and contains no resolved entry. -/
theorem executeBatch_connection_failure (exec : List RedisCmd → ExecOutcome)
    (ops : List BatchOp) (e : String)
    (hfail : exec (buildPipeline ops) = ExecOutcome.failed e) (hne : ops ≠ []) :
    executeBatch exec ops = ops.map (fun _ => Resolution.rejected e) ∧
    ∀ r ∈ executeBatch exec ops, r = Resolution.rejected e := by
  have h : executeBatch exec ops = ops.map (fun _ => Resolution.rejected e) := by
    simp [executeBatch, hne, hfail]
  refine ⟨h, ?_⟩
  intro r hr
  rw [h] at hr
  obtain ⟨a, -, ha⟩ := List.mem_map.1 hr
  exact ha.symm

/-- C4 witness: a transport that always throws rejects both operations of a
two-operation flush with that error. -/
theorem executeBatch_connection_failure_witness :
    executeBatch (fun _ => ExecOutcome.failed "boom")
        [⟨"set", "k1", some "v1"⟩, ⟨"get", "k2", none⟩] =
      [Resolution.rejected "boom", Resolution.rejected "boom"] := by
  have h := executeBatch_connection_failure (fun _ => ExecOutcome.failed "boom")
    [⟨"set", "k1", some "v1"⟩, ⟨"get", "k2", none⟩] "boom" rfl (by decide)
  simpa using h.1

/-- C1 (code bug): in the batch `[set k1 v1, get k2]` against a store where
`k2 ↦ "v2"`, the result walk indexes the full per-command result array with a
counter that only counts `get`s, so the `get` of `k2` resolves with the
`set`'s own "OK" reply instead of the store's value "v2" for its key. -/
theorem executeBatch_misroutes_get :
    executeBatch (execOnStore (fun k => if k = "k2" then some "v2" else none))
        [⟨"set", "k1", some "v1"⟩, ⟨"get", "k2", none⟩] =
      [Resolution.resolved JsRes.boolTrue,
       Resolution.resolved (JsRes.reply (RedisReply.str "OK"))] ∧
    (fun k => if k = "k2" then some "v2" else none) "k2" = some "v2" ∧
    Resolution.resolved (JsRes.reply (RedisReply.str "OK")) ≠
      Resolution.resolved (JsRes.reply (RedisReply.str "v2")) := by
  refine ⟨by decide, by decide, by decide⟩

/-! ## Memory caches (class MemoryCache in utils.ts; getCachedData closure)

A cache maps keys to `(data, timestamp)` entries; `Date.now()` is passed in
explicitly as `now`.  The cached payload type is generic (`any` in the
source).  `MemoryCache.get` mutates the map (lazy expiry deletion) and the
hit/miss counters, so it returns the looked-up value together with the new
cache state.  The periodic sweep (`startCleanup`) is an independent timer and
is not involved in these definitions. -/

structure MemoryCache (α : Type) where
  cache : String → Option (α × Nat)
  ttl : Nat
  hitCount : Nat
  missCount : Nat

/-- `MemoryCache.get`: a missing entry counts a miss; an entry whose age
`now - timestamp` strictly exceeds `ttl` is deleted and counts a miss; a live
entry counts a hit and returns its data. -/
def MemoryCache.get {α : Type} (mc : MemoryCache α) (key : String) (now : Nat) :
    Option α × MemoryCache α :=
  match mc.cache key with
  | none => (none, { mc with missCount := mc.missCount + 1 })
  | some entry =>
      if mc.ttl < now - entry.2 then
        (none, { mc with
                  cache := fun k => if k = key then none else mc.cache k,
                  missCount := mc.missCount + 1 })
      else
        (some entry.1, { mc with hitCount := mc.hitCount + 1 })

/-- `MemoryCache.set` stores the data with the current timestamp. -/
def MemoryCache.set {α : Type} (mc : MemoryCache α) (key : String) (data : α) (now : Nat) :
    MemoryCache α :=
  { mc with cache := fun k => if k = key then some (data, now) else mc.cache k }

/-- A session cache (one registry entry of `sessionCaches`): a bare map from
cache key to `(data, timestamp)`. -/
def SessionCache (α : Type) : Type := String → Option (α × Nat)

/-- `getCachedData` (closure inside `useRedisAuthState`): with caching
disabled it answers null; otherwise a missing entry answers null, an entry
older than `cacheTTL` is deleted from the session cache and answers null, and
a live entry answers its data.  Returns the value and the possibly mutated
session cache. -/
def getCachedData {α : Type} (enableCache : Bool) (cacheTTL : Nat)
    (cache : SessionCache α) (key : String) (now : Nat) :
    Option α × SessionCache α :=
  if enableCache = false then (none, cache)
  else
    match cache key with
    | none => (none, cache)
    | some c =>
        if cacheTTL < now - c.2 then
          (none, fun k => if k = key then none else cache k)
        else (some c.1, cache)

/-- `setCachedData` (closure inside `useRedisAuthState`). -/
def setCachedData {α : Type} (enableCache : Bool) (cache : SessionCache α)
    (key : String) (data : α) (now : Nat) : SessionCache α :=
  if enableCache = false then cache
  else fun k => if k = key then some (data, now) else cache k

/-- C6: once an entry's age strictly exceeds the TTL, the lookup itself
returns absent and deletes the entry — in both cache implementations
(`MemoryCache.get` and the session-scoped `getCachedData`), with no sweep
involved. -/
theorem cache_lazy_expiry {α : Type} (key : String) (now : Nat) :
    (∀ (mc : MemoryCache α) (entry : α × Nat),
        mc.cache key = some entry → mc.ttl < now - entry.2 →
          (mc.get key now).1 = none ∧ (mc.get key now).2.cache key = none) ∧
    (∀ (cacheTTL : Nat) (cache : SessionCache α) (entry : α × Nat),
        cache key = some entry → cacheTTL < now - entry.2 →
          (getCachedData true cacheTTL cache key now).1 = none ∧
          (getCachedData true cacheTTL cache key now).2 key = none) := by
  constructor
  · intro mc entry hfound hexp
    simp [MemoryCache.get, hfound, hexp]
  · intro cacheTTL cache entry hfound hexp
    simp [getCachedData, hfound, hexp]

/-- C6 witness: an entry inserted at time 0 with TTL 30000 is absent and
gone when looked up at time 30001 in both implementations. -/
theorem cache_lazy_expiry_witness :
    ((MemoryCache.mk (fun k => if k = "a" then some (7, 0) else none) 30000 0 0).get "a" 30001).1
        = (none : Option Nat) ∧
    ((MemoryCache.mk (fun k => if k = "a" then some (7, 0) else none) 30000 0 0).get "a" 30001).2.cache "a"
        = none ∧
    (getCachedData true 30000 (fun k => if k = "a" then some (7, 0) else none) "a" 30001).1
        = (none : Option Nat) ∧
    (getCachedData true 30000 (fun k => if k = "a" then some (7, 0) else none) "a" 30001).2 "a"
        = none := by
  have h := cache_lazy_expiry (α := Nat) "a" 30001
  have h1 := h.1 (MemoryCache.mk (fun k => if k = "a" then some (7, 0) else none) 30000 0 0)
    (7, 0) (by simp) (by decide)
  have h2 := h.2 30000 (fun k => if k = "a" then some (7, 0) else none) (7, 0) (by simp) (by omega)
  exact ⟨h1.1, h1.2, h2.1, h2.2⟩

/-! ## Client detection and setWithExpiration

A transport client is described by its observable shape: its constructor
name, which methods exist (`connect`, `get`, `setEx`, `setex`, `setEX`,
`set`), and whether calls raise.  `detectRedisClient` inspects only the
shape; `setWithExpiration` picks a set-with-expiry method, and on any
failure (including the absence of every such method) falls back to a plain
`set` of the same key and value with a console warning. -/

inductive ClientType where
  | ioredis
  | nodeRedis
  | unknownClient
deriving Repr, DecidableEq

structure RedisClientShape where
  ctorName : String
  hasConnect : Bool
  hasGet : Bool
  hasSetExCamel : Bool
  hasSetexLower : Bool
  hasSetEXCaps : Bool
  hasSet : Bool
  expiryCallFails : Bool
  plainSetFails : Bool
deriving Repr, DecidableEq

/-- `detectRedisClient`: ioredis by constructor name `Redis`/`Cluster`,
node-redis by the presence of `connect` or `get`, otherwise unknown. -/
def detectRedisClient (c : RedisClientShape) : ClientType :=
  if c.ctorName = "Redis" ∨ c.ctorName = "Cluster" then ClientType.ioredis
  else if c.hasConnect ∨ c.hasGet then ClientType.nodeRedis
  else ClientType.unknownClient

/-- What a write attempt left in the store, plus whether the TTL-fallback
warning was logged. -/
inductive WriteEffect where
  | expiry (key : String) (value : String) (ttl : Nat)
  | plain (key : String) (value : String)
deriving Repr, DecidableEq

/-- The `try` body of `setWithExpiration`: ioredis calls `setex`; node-redis
calls the first of `setEx`/`setex`/`setEX`/`set ... EX` that exists and
throws if none exists; an unknown client does a plain `set` and warns.
Calling an absent `set` throws (a JavaScript TypeError). -/
def sweTry (c : RedisClientShape) (key value : String) (ttl : Nat) :
    Except String (WriteEffect × Bool) :=
  match detectRedisClient c with
  | ClientType.ioredis =>
      if c.expiryCallFails then Except.error "setex failed"
      else Except.ok (WriteEffect.expiry key value ttl, false)
  | ClientType.nodeRedis =>
      if c.hasSetExCamel ∨ c.hasSetexLower ∨ c.hasSetEXCaps ∨ c.hasSet then
        if c.expiryCallFails then Except.error "expiry call failed"
        else Except.ok (WriteEffect.expiry key value ttl, false)
      else Except.error "Redis client does not support setting expiration"
  | ClientType.unknownClient =>
      if c.hasSet = false ∨ c.plainSetFails then Except.error "set failed"
      else Except.ok (WriteEffect.plain key value, true)

/-- `setWithExpiration`: run the `try` body; on any thrown error fall back to
a plain `set` of the same key and value and log the warning; if that plain
`set` also throws, the error propagates to the caller. -/
def setWithExpiration (c : RedisClientShape) (key value : String) (ttl : Nat) :
    Except String (WriteEffect × Bool) :=
  match sweTry c key value ttl with
  | Except.ok r => Except.ok r
  | Except.error _ =>
      if c.hasSet = false ∨ c.plainSetFails then Except.error "set failed"
      else Except.ok (WriteEffect.plain key value, true)

/-- C8: for a positive ttl, when the client has a working plain `set` and the
transport either is an unrecognized client (no known set-with-expiry method
is attempted) or its set-with-expiry call fails, `setWithExpiration` succeeds
with a plain no-expiry `set` of the same key and value and the warning
logged. -/
theorem setWithExpiration_lossy_fallback (c : RedisClientShape) (key value : String)
    (ttl : Nat) (httl : 0 < ttl) (hset : c.hasSet = true) (hok : c.plainSetFails = false)
    (hlack : detectRedisClient c = ClientType.unknownClient ∨ c.expiryCallFails = true) :
    setWithExpiration c key value ttl = Except.ok (WriteEffect.plain key value, true) := by
  rcases hlack with hu | hf
  · simp [setWithExpiration, sweTry, hu, hset, hok]
  · cases hdet : detectRedisClient c with
    | ioredis => simp [setWithExpiration, sweTry, hdet, hf, hset, hok]
    | nodeRedis =>
        simp only [setWithExpiration, sweTry, hdet, hf, hset]
        simp [hok]
    | unknownClient => simp [setWithExpiration, sweTry, hdet, hset, hok]

/-- C8 witness: an unrecognized client with only a working `set`, and an
ioredis client whose `setex` call throws, both end with the warned plain
write. -/
theorem setWithExpiration_lossy_fallback_witness :
    setWithExpiration (RedisClientShape.mk "Foo" false false false false false true false false)
        "k" "v" 60 = Except.ok (WriteEffect.plain "k" "v", true) ∧
    setWithExpiration (RedisClientShape.mk "Redis" false true false false false true true false)
        "k" "v" 60 = Except.ok (WriteEffect.plain "k" "v", true) := by
  constructor
  · exact setWithExpiration_lossy_fallback
      (RedisClientShape.mk "Foo" false false false false false true false false)
      "k" "v" 60 (by omega) rfl rfl (Or.inl (by decide))
  · exact setWithExpiration_lossy_fallback
      (RedisClientShape.mk "Redis" false true false false false true true false)
      "k" "v" 60 (by omega) rfl rfl (Or.inr rfl)

/-! ## JSON values

`JVal` models a JavaScript value as handled by the two codecs: JSON atoms,
arrays, objects (ordered field lists, `JObj`), and binary payloads (`jbin`, a
Node `Buffer`/`Uint8Array`, compared by byte content).  JSON numbers are
modelled as `Int`: the payloads this library serializes are structures,
strings and byte arrays, whose numeric leaves are integers (JavaScript
doubles are exact on them).  A bespoke mutual inductive is used instead of
nested `List`s so that all functions are structurally recursive and reduce
inside the kernel. -/

mutual
inductive JVal where
  | jnull : JVal
  | jbool (b : Bool) : JVal
  | jnum (n : Int) : JVal
  | jstr (s : String) : JVal
  | jarr (xs : JArr) : JVal
  | jobj (fs : JObj) : JVal
  | jbin (bs : List Nat) : JVal
inductive JArr where
  | nil : JArr
  | cons (hd : JVal) (tl : JArr) : JArr
inductive JObj where
  | nil : JObj
  | cons (key : String) (val : JVal) (tl : JObj) : JObj
end

/-- Property access `obj.key` on a JavaScript object (keys are unique there,
so first match). -/
def JObj.lookup : JObj → String → Option JVal
  | JObj.nil, _ => none
  | JObj.cons k v tl, key => if k = key then some v else tl.lookup key

/-- `Array.from` of a byte sequence: the bytes as JSON numbers. -/
def bytesArr : List Nat → JArr
  | [] => JArr.nil
  | b :: bs => JArr.cons (JVal.jnum (Int.ofNat b)) (bytesArr bs)

/-- Element coercion performed by `new Uint8Array(array)` / `Buffer.from(array)`:
numbers reduce modulo 256, `true` becomes 1, everything else 0. -/
def coerceByte : JVal → Nat
  | JVal.jnum n => (n % 256).toNat
  | JVal.jbool b => if b then 1 else 0
  | _ => 0

def bytesOf : JArr → List Nat
  | JArr.nil => []
  | JArr.cons v tl => coerceByte v :: bytesOf tl

mutual
def binFree : JVal → Bool
  | JVal.jarr xs => binFreeA xs
  | JVal.jobj fs => binFreeO fs
  | JVal.jbin _ => false
  | _ => true
def binFreeA : JArr → Bool
  | JArr.nil => true
  | JArr.cons x xs => binFree x && binFreeA xs
def binFreeO : JObj → Bool
  | JObj.nil => true
  | JObj.cons _ v fs => binFree v && binFreeO fs
end

mutual
def sizeV : JVal → Nat
  | JVal.jarr xs => 1 + sizeA xs
  | JVal.jobj fs => 1 + sizeO fs
  | _ => 1
def sizeA : JArr → Nat
  | JArr.nil => 0
  | JArr.cons x xs => 1 + sizeV x + sizeA xs
def sizeO : JObj → Nat
  | JObj.nil => 0
  | JObj.cons _ v fs => 1 + sizeV v + sizeO fs
end

/-! ## Decimal digits (the integer part of `JSON.stringify`/`JSON.parse`) -/

def digChar (n : Nat) : Char := Char.ofNat (48 + n)

def isDig (c : Char) : Bool := 48 ≤ c.toNat && c.toNat ≤ 57

def digVal (c : Char) : Nat := c.toNat - 48

/-- Decimal digits of `n`, most significant first; `fuel` bounds the
recursion depth (any `fuel > n` is enough). -/
def natChars : Nat → Nat → List Char
  | 0, _ => []
  | fuel + 1, n => if n < 10 then [digChar n] else natChars fuel (n / 10) ++ [digChar (n % 10)]

def printNat (n : Nat) : List Char := natChars (n + 1) n

def printInt (n : Int) : List Char :=
  if n < 0 then '-' :: printNat n.natAbs else printNat n.toNat

def digsVal (l : List Char) : Nat := l.foldl (fun a c => 10 * a + digVal c) 0

/-- Longest digit run at the head of the input, and whatever follows. -/
def takeDigs : List Char → List Char × List Char
  | [] => ([], [])
  | c :: cs => if isDig c then (c :: (takeDigs cs).1, (takeDigs cs).2) else ([], c :: cs)

/-- The number branch of `JSON.parse`: optional minus, then a nonempty digit
run, read as far as it extends. -/
def parseNum : List Char → Option (Int × List Char)
  | [] => none
  | c :: cs =>
    if c = '-' then
      if (takeDigs cs).1 = [] then none
      else some (-(Int.ofNat (digsVal (takeDigs cs).1)), (takeDigs cs).2)
    else if isDig c then
      some (Int.ofNat (digsVal (c :: (takeDigs cs).1)), (takeDigs cs).2)
    else none

/-- Whether the input does not continue a digit run. -/
def noDigitHead : List Char → Bool
  | [] => true
  | c :: _ => !isDig c

theorem toNat_digChar (n : Nat) (h : n < 10) : (digChar n).toNat = 48 + n := by
  have hv : (48 + n).isValidChar := Or.inl (by omega)
  simp [digChar, Char.ofNat, hv, Char.ofNatAux, Char.toNat]
  rfl

theorem isDig_digChar (n : Nat) (h : n < 10) : isDig (digChar n) = true := by
  simp [isDig, toNat_digChar n h]
  omega

theorem digVal_digChar (n : Nat) (h : n < 10) : digVal (digChar n) = n := by
  simp [digVal, toNat_digChar n h]

theorem char_ne_of_toNat {c d : Char} (h : c.toNat ≠ d.toNat) : c ≠ d :=
  fun he => h (he ▸ rfl)

theorem isDig_toNat {c : Char} (h : isDig c = true) : 48 ≤ c.toNat ∧ c.toNat ≤ 57 := by
  simpa [isDig] using h

theorem natChars_all_digits : ∀ fuel n c, c ∈ natChars fuel n → isDig c = true := by
  intro fuel
  induction fuel with
  | zero => intro n c h; simp [natChars] at h
  | succ fuel ih =>
      intro n c h
      simp only [natChars] at h
      by_cases hn : n < 10
      · rw [if_pos hn] at h
        simp at h
        subst h
        exact isDig_digChar n hn
      · rw [if_neg hn] at h
        rcases List.mem_append.1 h with h1 | h1
        · exact ih _ c h1
        · simp at h1
          subst h1
          exact isDig_digChar (n % 10) (Nat.mod_lt n (by omega))

theorem natChars_ne_nil (fuel n : Nat) (h : 0 < fuel) : natChars fuel n ≠ [] := by
  cases fuel with
  | zero => omega
  | succ fuel =>
      simp only [natChars]
      by_cases hn : n < 10
      · simp [hn]
      · simp [hn]

theorem digsVal_append_digit (l : List Char) (c : Char) :
    digsVal (l ++ [c]) = 10 * digsVal l + digVal c := by
  simp [digsVal, List.foldl_append]

theorem digsVal_natChars : ∀ fuel n, n < fuel → digsVal (natChars fuel n) = n := by
  intro fuel
  induction fuel with
  | zero => intro n h; omega
  | succ fuel ih =>
      intro n h
      simp only [natChars]
      by_cases hn : n < 10
      · rw [if_pos hn]
        simp [digsVal, digVal_digChar n hn]
      · rw [if_neg hn]
        rw [digsVal_append_digit]
        rw [ih (n / 10) (by omega)]
        rw [digVal_digChar (n % 10) (Nat.mod_lt n (by omega))]
        omega

theorem takeDigs_append (ds rest : List Char) (hds : ∀ c ∈ ds, isDig c = true)
    (hrest : noDigitHead rest = true) : takeDigs (ds ++ rest) = (ds, rest) := by
  induction ds with
  | nil =>
      simp only [List.nil_append]
      cases rest with
      | nil => rfl
      | cons c cs =>
          simp only [noDigitHead, Bool.not_eq_true'] at hrest
          simp [takeDigs, hrest]
  | cons c cs ih =>
      have hc : isDig c = true := hds c (by simp)
      have := ih (fun x hx => hds x (by simp [hx]))
      simp [takeDigs, hc, this]

theorem printNat_all_digits (n : Nat) : ∀ c ∈ printNat n, isDig c = true :=
  fun c hc => natChars_all_digits (n + 1) n c hc

theorem printNat_ne_nil (n : Nat) : printNat n ≠ [] :=
  natChars_ne_nil (n + 1) n (by omega)

theorem digsVal_printNat (n : Nat) : digsVal (printNat n) = n :=
  digsVal_natChars (n + 1) n (by omega)

theorem parseNum_printInt (n : Int) (rest : List Char) (hrest : noDigitHead rest = true) :
    parseNum (printInt n ++ rest) = some (n, rest) := by
  by_cases hn : n < 0
  · simp only [printInt, if_pos hn, List.cons_append]
    have htake : takeDigs (printNat n.natAbs ++ rest) = (printNat n.natAbs, rest) :=
      takeDigs_append _ _ (printNat_all_digits n.natAbs) hrest
    have hne := printNat_ne_nil n.natAbs
    have hcast : -Int.ofNat n.natAbs = n := by
      rw [Int.ofNat_eq_coe]; omega
    simp [parseNum, htake, hne, digsVal_printNat, hcast]
    rw [abs_of_neg hn, neg_neg]
  · simp only [printInt, if_neg hn]
    obtain ⟨d, ds, hds⟩ : ∃ d ds, printNat n.toNat = d :: ds := by
      cases hp : printNat n.toNat with
      | nil => exact absurd hp (printNat_ne_nil n.toNat)
      | cons d ds => exact ⟨d, ds, rfl⟩
    have hd : isDig d = true := printNat_all_digits n.toNat d (by rw [hds]; simp)
    have hdm : d ≠ '-' := by
      apply char_ne_of_toNat
      have := isDig_toNat hd
      intro hc
      rw [hc] at this
      revert this
      decide
    have hdsdig : ∀ c ∈ ds, isDig c = true := fun c hc =>
      printNat_all_digits n.toNat c (by rw [hds]; simp [hc])
    have htake : takeDigs (ds ++ rest) = (ds, rest) := takeDigs_append _ _ hdsdig hrest
    rw [hds]
    simp only [List.cons_append, parseNum, if_neg hdm, if_pos hd, htake]
    have hval : digsVal (d :: ds) = n.toNat := by
      rw [← hds]
      exact digsVal_printNat n.toNat
    rw [hval]
    have : Int.ofNat n.toNat = n := by
      rw [Int.ofNat_eq_coe]; omega
    rw [this]

/-! ## JSON string escaping (`JSON.stringify` quoting and the string branch
of `JSON.parse`).  The printer escapes the quote, the backslash and control
characters (the latter as a four-hex-digit escape; `JSON.stringify`'s
two-letter shorthands for some of them are an equivalent spelling accepted by
the same parser).  The parser also accepts the shorthand escapes. -/

def hexDig (n : Nat) : Char :=
  if n < 10 then digChar n else Char.ofNat (87 + n)

def hexVal (c : Char) : Option Nat :=
  if 48 ≤ c.toNat ∧ c.toNat ≤ 57 then some (c.toNat - 48)
  else if 97 ≤ c.toNat ∧ c.toNat ≤ 102 then some (c.toNat - 87)
  else if 65 ≤ c.toNat ∧ c.toNat ≤ 70 then some (c.toNat - 55)
  else none

def escChar (c : Char) : List Char :=
  if c = '"' then ['\\', '"']
  else if c = '\\' then ['\\', '\\']
  else if c.toNat < 32 then ['\\', 'u', '0', '0', hexDig (c.toNat / 16), hexDig (c.toNat % 16)]
  else [c]

def escStr : List Char → List Char
  | [] => []
  | c :: cs => escChar c ++ escStr cs

def unescChar (c : Char) : Option Char :=
  if c = '"' then some '"'
  else if c = '\\' then some '\\'
  else if c = '/' then some '/'
  else if c = 'b' then some (Char.ofNat 8)
  else if c = 'f' then some (Char.ofNat 12)
  else if c = 'n' then some (Char.ofNat 10)
  else if c = 'r' then some (Char.ofNat 13)
  else if c = 't' then some (Char.ofNat 9)
  else none

/-- The string body scanner of `JSON.parse`, applied after the opening quote:
collects characters until the closing quote, decoding escapes. -/
def parseStrAux : List Char → Option (List Char × List Char)
  | [] => none
  | c :: cs =>
    if c = '"' then some ([], cs)
    else if c = '\\' then
      match cs with
      | [] => none
      | e :: cs2 =>
        if e = 'u' then
          match cs2 with
          | h1 :: h2 :: h3 :: h4 :: cs3 =>
            match hexVal h1, hexVal h2, hexVal h3, hexVal h4 with
            | some v1, some v2, some v3, some v4 =>
                (parseStrAux cs3).map fun p =>
                  (Char.ofNat (4096 * v1 + 256 * v2 + 16 * v3 + v4) :: p.1, p.2)
            | _, _, _, _ => none
          | _ => none
        else
          match unescChar e with
          | some ec => (parseStrAux cs2).map fun p => (ec :: p.1, p.2)
          | none => none
    else (parseStrAux cs).map fun p => (c :: p.1, p.2)
  termination_by structural l => l

theorem hexVal_hexDig : ∀ n, n < 16 → hexVal (hexDig n) = some n := by decide

theorem parseStrAux_quote (rest : List Char) :
    parseStrAux ('"' :: rest) = some ([], rest) := by
  rw [parseStrAux.eq_def]; dsimp only; rw [if_pos rfl]

theorem parseStrAux_escQuote (r : List Char) :
    parseStrAux ('\\' :: '"' :: r) = (parseStrAux r).map fun p => ('"' :: p.1, p.2) := by
  rw [parseStrAux.eq_def]; dsimp only
  rw [if_neg (by decide), if_pos rfl]
  rw [if_neg (by decide)]
  rfl

theorem parseStrAux_escBack (r : List Char) :
    parseStrAux ('\\' :: '\\' :: r) = (parseStrAux r).map fun p => ('\\' :: p.1, p.2) := by
  rw [parseStrAux.eq_def]; dsimp only
  rw [if_neg (by decide), if_pos rfl]
  rw [if_neg (by decide)]
  rfl

theorem parseStrAux_escU (h1 h2 h3 h4 : Char) (r : List Char) :
    parseStrAux ('\\' :: 'u' :: h1 :: h2 :: h3 :: h4 :: r) =
      match hexVal h1, hexVal h2, hexVal h3, hexVal h4 with
      | some v1, some v2, some v3, some v4 =>
          (parseStrAux r).map fun p =>
            (Char.ofNat (4096 * v1 + 256 * v2 + 16 * v3 + v4) :: p.1, p.2)
      | _, _, _, _ => none := by
  rw [parseStrAux.eq_def]; dsimp only
  rw [if_neg (by decide), if_pos rfl]
  rw [if_pos rfl]

theorem parseStrAux_raw (c : Char) (r : List Char) (h1 : c ≠ '"') (h2 : c ≠ '\\') :
    parseStrAux (c :: r) = (parseStrAux r).map fun p => (c :: p.1, p.2) := by
  rw [parseStrAux.eq_def]; dsimp only
  rw [if_neg h1, if_neg h2]

theorem parseStrAux_escStr : ∀ (l rest : List Char),
    parseStrAux (escStr l ++ '"' :: rest) = some (l, rest) := by
  intro l
  induction l with
  | nil => intro rest; exact parseStrAux_quote rest
  | cons c cs ih =>
      intro rest
      simp only [escStr, List.append_assoc]
      by_cases h1 : c = '"'
      · subst h1
        rw [show escChar '"' = ['\\', '"'] from rfl]
        simp only [List.cons_append, List.nil_append]
        rw [parseStrAux_escQuote, ih rest]
        rfl
      · by_cases h2 : c = '\\'
        · subst h2
          rw [show escChar '\\' = ['\\', '\\'] from rfl]
          simp only [List.cons_append, List.nil_append]
          rw [parseStrAux_escBack, ih rest]
          rfl
        · by_cases h3 : c.toNat < 32
          · have hd1 : hexVal (hexDig (c.toNat / 16)) = some (c.toNat / 16) :=
              hexVal_hexDig _ (by omega)
            have hd2 : hexVal (hexDig (c.toNat % 16)) = some (c.toNat % 16) :=
              hexVal_hexDig _ (by omega)
            have hesc : escChar c =
                ['\\', 'u', '0', '0', hexDig (c.toNat / 16), hexDig (c.toNat % 16)] := by
              simp [escChar, h1, h2, h3]
            rw [hesc]
            simp only [List.cons_append, List.nil_append, parseStrAux_escU]
            rw [show hexVal '0' = some 0 from rfl, hd1, hd2]
            rw [ih rest]
            dsimp only
            have hval : 4096 * 0 + 256 * 0 + 16 * (c.toNat / 16) + c.toNat % 16 = c.toNat := by
              omega
            rw [hval, Char.ofNat_toNat]
            rfl
          · have h4 : escChar c = [c] := by
              simp [escChar, h1, h2, h3]
            rw [h4]
            simp only [List.cons_append, List.nil_append]
            rw [parseStrAux_raw c _ h1 h2, ih rest]
            rfl

/-! ## JSON printer (`JSON.stringify` over the tree) and parser
(`JSON.parse`).  The printer emits no insignificant whitespace, exactly as
`JSON.stringify` does.  The parser is indexed by a recursion-depth fuel; any
fuel larger than the printed value's size suffices (the top-level entry point
supplies input length + 1). -/

def printBytes : List Nat → List Char
  | [] => []
  | [b] => printNat b
  | b :: b2 :: bs => printNat b ++ ',' :: printBytes (b2 :: bs)

mutual
def printV : JVal → List Char
  | JVal.jnull => ['n', 'u', 'l', 'l']
  | JVal.jbool true => ['t', 'r', 'u', 'e']
  | JVal.jbool false => ['f', 'a', 'l', 's', 'e']
  | JVal.jnum n => printInt n
  | JVal.jstr s => '"' :: escStr s.data ++ ['"']
  | JVal.jarr JArr.nil => ['[', ']']
  | JVal.jarr (JArr.cons x xs) => '[' :: printV x ++ printA xs ++ [']']
  | JVal.jobj JObj.nil => ['\x7b', '\x7d']
  | JVal.jobj (JObj.cons k v fs) =>
      '\x7b' :: '"' :: escStr k.data ++ '"' :: ':' :: printV v ++ printO fs ++ ['\x7d']
  | JVal.jbin bs =>
      '\x7b' :: "\"type\":\"Buffer\",\"data\":[".data ++ printBytes bs ++ [']', '\x7d']
def printA : JArr → List Char
  | JArr.nil => []
  | JArr.cons x xs => ',' :: printV x ++ printA xs
def printO : JObj → List Char
  | JObj.nil => []
  | JObj.cons k v fs => ',' :: '"' :: escStr k.data ++ '"' :: ':' :: printV v ++ printO fs
end

mutual
def parseV : Nat → List Char → Option (JVal × List Char)
  | 0, _ => none
  | fuel + 1, l =>
    match l with
    | [] => none
    | c :: cs =>
      if c = '"' then (parseStrAux cs).map fun p => (JVal.jstr (String.mk p.1), p.2)
      else if c = '[' then
        match cs with
        | [] => none
        | c2 :: cs2 =>
          if c2 = ']' then some (JVal.jarr JArr.nil, cs2)
          else
            match parseV fuel (c2 :: cs2) with
            | none => none
            | some (x, r1) =>
              match parseTail fuel r1 with
              | none => none
              | some (xs, r2) => some (JVal.jarr (JArr.cons x xs), r2)
      else if c = '\x7b' then
        match cs with
        | [] => none
        | c2 :: cs2 =>
          if c2 = '\x7d' then some (JVal.jobj JObj.nil, cs2)
          else if c2 = '"' then
            match parseStrAux cs2 with
            | none => none
            | some (kd, r1) =>
              match r1 with
              | ':' :: r2 =>
                match parseV fuel r2 with
                | none => none
                | some (v, r3) =>
                  match parseOTail fuel r3 with
                  | none => none
                  | some (fs, r4) => some (JVal.jobj (JObj.cons (String.mk kd) v fs), r4)
              | _ => none
          else none
      else if c = 'n' then
        match cs with
        | 'u' :: 'l' :: 'l' :: r => some (JVal.jnull, r)
        | _ => none
      else if c = 't' then
        match cs with
        | 'r' :: 'u' :: 'e' :: r => some (JVal.jbool true, r)
        | _ => none
      else if c = 'f' then
        match cs with
        | 'a' :: 'l' :: 's' :: 'e' :: r => some (JVal.jbool false, r)
        | _ => none
      else (parseNum (c :: cs)).map fun p => (JVal.jnum p.1, p.2)
  termination_by structural fuel l => fuel
def parseTail : Nat → List Char → Option (JArr × List Char)
  | 0, _ => none
  | fuel + 1, l =>
    match l with
    | [] => none
    | c :: r =>
      if c = ']' then some (JArr.nil, r)
      else if c = ',' then
        match parseV fuel r with
        | none => none
        | some (x, r1) =>
          match parseTail fuel r1 with
          | none => none
          | some (xs, r2) => some (JArr.cons x xs, r2)
      else none
  termination_by structural fuel l => fuel
def parseOTail : Nat → List Char → Option (JObj × List Char)
  | 0, _ => none
  | fuel + 1, l =>
    match l with
    | [] => none
    | c :: r =>
      if c = '\x7d' then some (JObj.nil, r)
      else if c = ',' then
        match r with
        | '"' :: ks =>
          match parseStrAux ks with
          | none => none
          | some (kd, r1) =>
            match r1 with
            | ':' :: r2 =>
              match parseV fuel r2 with
              | none => none
              | some (v, r3) =>
                match parseOTail fuel r3 with
                | none => none
                | some (fs, r4) => some (JObj.cons (String.mk kd) v fs, r4)
            | _ => none
        | _ => none
      else none
  termination_by structural fuel l => fuel
end

def jprint (j : JVal) : String := String.mk (printV j)

/-- `JSON.parse`: the whole input must be one value. -/
def jparse (s : String) : Option JVal :=
  match parseV (s.data.length + 1) s.data with
  | some (v, []) => some v
  | _ => none


theorem parseV_quote (fuel : Nat) (cs : List Char) :
    parseV (fuel + 1) ('"' :: cs) =
      (parseStrAux cs).map fun p => (JVal.jstr (String.mk p.1), p.2) := rfl

theorem parseV_arr (fuel : Nat) (c2 : Char) (cs2 : List Char) :
    parseV (fuel + 1) ('[' :: c2 :: cs2) =
      (if c2 = ']' then some (JVal.jarr JArr.nil, cs2)
       else
         match parseV fuel (c2 :: cs2) with
         | none => none
         | some (x, r1) =>
           match parseTail fuel r1 with
           | none => none
           | some (xs, r2) => some (JVal.jarr (JArr.cons x xs), r2)) := rfl

theorem parseV_obj (fuel : Nat) (c2 : Char) (cs2 : List Char) :
    parseV (fuel + 1) ('\x7b' :: c2 :: cs2) =
      (if c2 = '\x7d' then some (JVal.jobj JObj.nil, cs2)
       else if c2 = '"' then
         match parseStrAux cs2 with
         | none => none
         | some (kd, r1) =>
           match r1 with
           | ':' :: r2 =>
             match parseV fuel r2 with
             | none => none
             | some (v, r3) =>
               match parseOTail fuel r3 with
               | none => none
               | some (fs, r4) => some (JVal.jobj (JObj.cons (String.mk kd) v fs), r4)
           | _ => none
       else none) := rfl

theorem parseV_null (fuel : Nat) (r : List Char) :
    parseV (fuel + 1) ('n' :: 'u' :: 'l' :: 'l' :: r) = some (JVal.jnull, r) := rfl

theorem parseV_true (fuel : Nat) (r : List Char) :
    parseV (fuel + 1) ('t' :: 'r' :: 'u' :: 'e' :: r) = some (JVal.jbool true, r) := rfl

theorem parseV_false (fuel : Nat) (r : List Char) :
    parseV (fuel + 1) ('f' :: 'a' :: 'l' :: 's' :: 'e' :: r) = some (JVal.jbool false, r) := rfl

theorem char_ne_of_toNat_ne_lit {c : Char} (d : Char) (m : Nat) (hd : d.toNat = m)
    (h : c.toNat ≠ m) : c ≠ d :=
  char_ne_of_toNat (by rw [hd]; exact h)

theorem numHead_ne_keys (c : Char) (h : isDig c = true ∨ c = '-') :
    c ≠ '"' ∧ c ≠ '[' ∧ c ≠ '\x7b' ∧ c ≠ 'n' ∧ c ≠ 't' ∧ c ≠ 'f' := by
  rcases h with h | h
  · have hb := isDig_toNat h
    exact ⟨char_ne_of_toNat_ne_lit '"' 34 (by decide) (by omega),
      char_ne_of_toNat_ne_lit '[' 91 (by decide) (by omega),
      char_ne_of_toNat_ne_lit '\x7b' 123 (by decide) (by omega),
      char_ne_of_toNat_ne_lit 'n' 110 (by decide) (by omega),
      char_ne_of_toNat_ne_lit 't' 116 (by decide) (by omega),
      char_ne_of_toNat_ne_lit 'f' 102 (by decide) (by omega)⟩
  · subst h
    exact ⟨by decide, by decide, by decide, by decide, by decide, by decide⟩

theorem parseV_num (fuel : Nat) (c : Char) (cs : List Char)
    (h : isDig c = true ∨ c = '-') :
    parseV (fuel + 1) (c :: cs) =
      (parseNum (c :: cs)).map fun p => (JVal.jnum p.1, p.2) := by
  obtain ⟨h1, h2, h3, h4, h5, h6⟩ := numHead_ne_keys c h
  have hstep : parseV (fuel + 1) (c :: cs) =
      (if c = '"' then (parseStrAux cs).map fun p => (JVal.jstr (String.mk p.1), p.2)
       else if c = '[' then
         match cs with
         | [] => none
         | c2 :: cs2 =>
           if c2 = ']' then some (JVal.jarr JArr.nil, cs2)
           else
             match parseV fuel (c2 :: cs2) with
             | none => none
             | some (x, r1) =>
               match parseTail fuel r1 with
               | none => none
               | some (xs, r2) => some (JVal.jarr (JArr.cons x xs), r2)
       else if c = '\x7b' then
         match cs with
         | [] => none
         | c2 :: cs2 =>
           if c2 = '\x7d' then some (JVal.jobj JObj.nil, cs2)
           else if c2 = '"' then
             match parseStrAux cs2 with
             | none => none
             | some (kd, r1) =>
               match r1 with
               | ':' :: r2 =>
                 match parseV fuel r2 with
                 | none => none
                 | some (v, r3) =>
                   match parseOTail fuel r3 with
                   | none => none
                   | some (fs, r4) => some (JVal.jobj (JObj.cons (String.mk kd) v fs), r4)
               | _ => none
           else none
       else if c = 'n' then
         match cs with
         | 'u' :: 'l' :: 'l' :: r => some (JVal.jnull, r)
         | _ => none
       else if c = 't' then
         match cs with
         | 'r' :: 'u' :: 'e' :: r => some (JVal.jbool true, r)
         | _ => none
       else if c = 'f' then
         match cs with
         | 'a' :: 'l' :: 's' :: 'e' :: r => some (JVal.jbool false, r)
         | _ => none
       else (parseNum (c :: cs)).map fun p => (JVal.jnum p.1, p.2)) := rfl
  rw [hstep, if_neg h1, if_neg h2, if_neg h3, if_neg h4, if_neg h5, if_neg h6]

theorem parseTail_step (fuel : Nat) (c : Char) (r : List Char) :
    parseTail (fuel + 1) (c :: r) =
      (if c = ']' then some (JArr.nil, r)
       else if c = ',' then
         match parseV fuel r with
         | none => none
         | some (x, r1) =>
           match parseTail fuel r1 with
           | none => none
           | some (xs, r2) => some (JArr.cons x xs, r2)
       else none) := rfl

theorem parseOTail_close (fuel : Nat) (r : List Char) :
    parseOTail (fuel + 1) ('\x7d' :: r) = some (JObj.nil, r) := rfl

theorem parseOTail_comma (fuel : Nat) (ks : List Char) :
    parseOTail (fuel + 1) (',' :: '"' :: ks) =
      (match parseStrAux ks with
       | none => none
       | some (kd, r1) =>
         match r1 with
         | ':' :: r2 =>
           match parseV fuel r2 with
           | none => none
           | some (v, r3) =>
             match parseOTail fuel r3 with
             | none => none
             | some (fs, r4) => some (JObj.cons (String.mk kd) v fs, r4)
         | _ => none) := rfl

theorem printInt_head (n : Int) :
    ∃ c cs, printInt n = c :: cs ∧ (isDig c = true ∨ c = '-') := by
  by_cases hn : n < 0
  · exact ⟨'-', printNat n.natAbs, by simp [printInt, hn], Or.inr rfl⟩
  · cases hp : printNat n.toNat with
    | nil => exact absurd hp (printNat_ne_nil n.toNat)
    | cons c cs =>
        refine ⟨c, cs, by simp [printInt, hn, hp], Or.inl ?_⟩
        exact printNat_all_digits n.toNat c (by rw [hp]; simp)

theorem printV_head (v : JVal) :
    ∃ c cs, printV v = c :: cs ∧
      (isDig c = true ∨ c = '-' ∨ c = '"' ∨ c = '[' ∨ c = '\x7b' ∨
        c = 'n' ∨ c = 't' ∨ c = 'f') := by
  cases v with
  | jnull => exact ⟨'n', _, rfl, by simp⟩
  | jbool b =>
      cases b with
      | true => exact ⟨'t', _, rfl, by simp⟩
      | false => exact ⟨'f', _, rfl, by simp⟩
  | jnum n =>
      obtain ⟨c, cs, h1, h2⟩ := printInt_head n
      exact ⟨c, cs, h1, by rcases h2 with h | h <;> simp [h]⟩
  | jstr s => exact ⟨'"', _, rfl, by simp⟩
  | jarr xs =>
      cases xs with
      | nil => exact ⟨'[', _, rfl, by simp⟩
      | cons x tl => exact ⟨'[', _, rfl, by simp⟩
  | jobj fs =>
      cases fs with
      | nil => exact ⟨'\x7b', _, rfl, by simp⟩
      | cons k v tl => exact ⟨'\x7b', _, rfl, by simp⟩
  | jbin bs => exact ⟨'\x7b', _, rfl, by simp⟩

theorem printV_head_ne_close (c : Char)
    (h : isDig c = true ∨ c = '-' ∨ c = '"' ∨ c = '[' ∨ c = '\x7b' ∨
      c = 'n' ∨ c = 't' ∨ c = 'f') : c ≠ ']' := by
  rcases h with h | h | h | h | h | h | h | h
  · have hb := isDig_toNat h
    exact char_ne_of_toNat_ne_lit ']' 93 (by decide) (by omega)
  all_goals (subst h; decide)

theorem noDigitHead_printA (xs : JArr) (rest : List Char) :
    noDigitHead (printA xs ++ ']' :: rest) = true := by
  cases xs with
  | nil => simp [printA, noDigitHead]; decide
  | cons x tl => simp [printA, noDigitHead]; decide

theorem noDigitHead_printO (fs : JObj) (rest : List Char) :
    noDigitHead (printO fs ++ '\x7d' :: rest) = true := by
  cases fs with
  | nil => simp [printO, noDigitHead]; decide
  | cons k v tl => simp [printO, noDigitHead]; decide

theorem string_mk_data (s : String) : String.mk s.data = s := rfl

theorem parseV_objMember (fuel : Nat) (ks : List Char) (r2 : List Char) :
    parseV (fuel + 1) ('\x7b' :: '"' :: (escStr ks ++ '"' :: ':' :: r2)) =
      (match parseV fuel r2 with
       | none => none
       | some (v, r3) =>
         match parseOTail fuel r3 with
         | none => none
         | some (fs, r4) => some (JVal.jobj (JObj.cons (String.mk ks) v fs), r4)) := by
  rw [parseV_obj, if_neg (by decide), if_pos rfl, parseStrAux_escStr ks (':' :: r2)]
  rfl

theorem parseOTail_member (fuel : Nat) (ks : List Char) (r2 : List Char) :
    parseOTail (fuel + 1) (',' :: '"' :: (escStr ks ++ '"' :: ':' :: r2)) =
      (match parseV fuel r2 with
       | none => none
       | some (v, r3) =>
         match parseOTail fuel r3 with
         | none => none
         | some (fs, r4) => some (JObj.cons (String.mk ks) v fs, r4)) := by
  rw [parseOTail_comma, parseStrAux_escStr ks (':' :: r2)]
  rfl

theorem parseV_printInt (fuel : Nat) (n : Int) (rest : List Char)
    (hrest : noDigitHead rest = true) :
    parseV (fuel + 1) (printInt n ++ rest) = some (JVal.jnum n, rest) := by
  obtain ⟨c, cs, h1, h2⟩ := printInt_head n
  rw [h1, List.cons_append, parseV_num fuel c (cs ++ rest) h2, ← List.cons_append, ← h1,
    parseNum_printInt n rest hrest]
  rfl

theorem parse_print_all : ∀ fuel : Nat,
    (∀ v rest, binFree v = true → sizeV v + 1 ≤ fuel → noDigitHead rest = true →
       parseV fuel (printV v ++ rest) = some (v, rest)) ∧
    (∀ xs rest, binFreeA xs = true → sizeA xs + 1 ≤ fuel →
       parseTail fuel (printA xs ++ ']' :: rest) = some (xs, rest)) ∧
    (∀ fs rest, binFreeO fs = true → sizeO fs + 1 ≤ fuel →
       parseOTail fuel (printO fs ++ '\x7d' :: rest) = some (fs, rest)) := by
  intro fuel
  induction fuel with
  | zero =>
      refine ⟨?_, ?_, ?_⟩
      · intro v rest _ hsz _; omega
      · intro xs rest _ hsz; omega
      · intro fs rest _ hsz; omega
  | succ fuel ih =>
      obtain ⟨ihV, ihT, ihO⟩ := ih
      refine ⟨?_, ?_, ?_⟩
      · intro v rest hbf hsz hrest
        cases v with
        | jnull =>
            show parseV (fuel + 1) (['n', 'u', 'l', 'l'] ++ rest) = _
            simp only [List.cons_append, List.nil_append]
            exact parseV_null fuel rest
        | jbool b =>
            cases b with
            | true =>
                show parseV (fuel + 1) (['t', 'r', 'u', 'e'] ++ rest) = _
                simp only [List.cons_append, List.nil_append]
                exact parseV_true fuel rest
            | false =>
                show parseV (fuel + 1) (['f', 'a', 'l', 's', 'e'] ++ rest) = _
                simp only [List.cons_append, List.nil_append]
                exact parseV_false fuel rest
        | jnum n => exact parseV_printInt fuel n rest hrest
        | jstr s =>
            show parseV (fuel + 1) (('"' :: escStr s.data ++ ['"']) ++ rest) = _
            simp only [List.cons_append, List.append_assoc, List.nil_append]
            rw [parseV_quote, parseStrAux_escStr]
            rfl
        | jarr xs =>
            cases xs with
            | nil =>
                show parseV (fuel + 1) (['[', ']'] ++ rest) = _
                simp only [List.cons_append, List.nil_append]
                rw [parseV_arr, if_pos rfl]
            | cons x tl =>
                have hbf' : binFree x = true ∧ binFreeA tl = true := by
                  simp [binFree, binFreeA] at hbf
                  exact hbf
                have hsz' : sizeV x + 1 ≤ fuel ∧ sizeA tl + 1 ≤ fuel := by
                  simp [sizeV, sizeA] at hsz
                  omega
                obtain ⟨c2, cs2, hx, hhead⟩ := printV_head x
                have hc2 : c2 ≠ ']' := printV_head_ne_close c2 hhead
                show parseV (fuel + 1)
                  (('[' :: printV x ++ printA tl ++ [']']) ++ rest) = _
                simp only [List.cons_append, List.append_assoc, List.nil_append]
                rw [hx, List.cons_append, parseV_arr, if_neg hc2, ← List.cons_append, ← hx]
                rw [show printV x ++ (printA tl ++ ']' :: rest) =
                    printV x ++ (printA tl ++ ']' :: rest) from rfl]
                rw [ihV x (printA tl ++ ']' :: rest) hbf'.1 hsz'.1
                  (noDigitHead_printA tl rest)]
                dsimp only
                rw [ihT tl rest hbf'.2 hsz'.2]
        | jobj fs =>
            cases fs with
            | nil =>
                show parseV (fuel + 1) (['\x7b', '\x7d'] ++ rest) = _
                simp only [List.cons_append, List.nil_append]
                rw [parseV_obj, if_pos rfl]
            | cons k v tl =>
                have hbf' : binFree v = true ∧ binFreeO tl = true := by
                  simp [binFree, binFreeO] at hbf
                  exact hbf
                have hsz' : sizeV v + 1 ≤ fuel ∧ sizeO tl + 1 ≤ fuel := by
                  simp [sizeV, sizeO] at hsz
                  omega
                show parseV (fuel + 1)
                  (('\x7b' :: '"' :: escStr k.data ++ '"' :: ':' :: printV v ++
                    printO tl ++ ['\x7d']) ++ rest) = _
                simp only [List.cons_append, List.append_assoc, List.nil_append]
                rw [parseV_objMember fuel k.data (printV v ++ (printO tl ++ '\x7d' :: rest))]
                rw [ihV v (printO tl ++ '\x7d' :: rest) hbf'.1 hsz'.1
                  (noDigitHead_printO tl rest)]
                dsimp only
                rw [ihO tl rest hbf'.2 hsz'.2]
        | jbin bs => simp [binFree] at hbf
      · intro xs rest hbf hsz
        cases xs with
        | nil =>
            show parseTail (fuel + 1) (']' :: rest) = _
            rw [parseTail_step, if_pos rfl]
        | cons x tl =>
            have hbf' : binFree x = true ∧ binFreeA tl = true := by
              simp [binFreeA] at hbf
              exact hbf
            have hsz' : sizeV x + 1 ≤ fuel ∧ sizeA tl + 1 ≤ fuel := by
              simp [sizeA] at hsz
              omega
            show parseTail (fuel + 1) ((',' :: printV x ++ printA tl) ++ ']' :: rest) = _
            simp only [List.cons_append, List.append_assoc]
            rw [parseTail_step, if_neg (by decide), if_pos rfl]
            rw [ihV x (printA tl ++ ']' :: rest) hbf'.1 hsz'.1 (noDigitHead_printA tl rest)]
            dsimp only
            rw [ihT tl rest hbf'.2 hsz'.2]
      · intro fs rest hbf hsz
        cases fs with
        | nil =>
            show parseOTail (fuel + 1) ('\x7d' :: rest) = _
            exact parseOTail_close fuel rest
        | cons k v tl =>
            have hbf' : binFree v = true ∧ binFreeO tl = true := by
              simp [binFreeO] at hbf
              exact hbf
            have hsz' : sizeV v + 1 ≤ fuel ∧ sizeO tl + 1 ≤ fuel := by
              simp [sizeO] at hsz
              omega
            show parseOTail (fuel + 1)
              ((',' :: '"' :: escStr k.data ++ '"' :: ':' :: printV v ++ printO tl) ++
                '\x7d' :: rest) = _
            simp only [List.cons_append, List.append_assoc]
            rw [parseOTail_member fuel k.data (printV v ++ (printO tl ++ '\x7d' :: rest))]
            rw [ihV v (printO tl ++ '\x7d' :: rest) hbf'.1 hsz'.1 (noDigitHead_printO tl rest)]
            dsimp only
            rw [ihO tl rest hbf'.2 hsz'.2]

theorem printInt_ne_nil (n : Int) : printInt n ≠ [] := by
  obtain ⟨c, cs, h1, _⟩ := printInt_head n
  rw [h1]
  simp

mutual
theorem sizeV_le_print : ∀ v : JVal, sizeV v ≤ (printV v).length
  | JVal.jnull => by simp [sizeV, printV]
  | JVal.jbool true => by simp [sizeV, printV]
  | JVal.jbool false => by simp [sizeV, printV]
  | JVal.jnum n => by
      have := printInt_ne_nil n
      have : 0 < (printInt n).length := List.length_pos.2 this
      simp only [sizeV, printV]
      omega
  | JVal.jstr s => by simp [sizeV, printV]
  | JVal.jarr JArr.nil => by simp [sizeV, printV, sizeA]
  | JVal.jarr (JArr.cons x xs) => by
      have h1 := sizeV_le_print x
      have h2 := sizeA_le_print xs
      simp only [sizeV, printV, sizeA, List.length_cons, List.length_append]
      omega
  | JVal.jobj JObj.nil => by simp [sizeV, printV, sizeO]
  | JVal.jobj (JObj.cons k v fs) => by
      have h1 := sizeV_le_print v
      have h2 := sizeO_le_print fs
      simp only [sizeV, printV, sizeO, List.length_cons, List.length_append]
      omega
  | JVal.jbin bs => by simp [sizeV, printV]
theorem sizeA_le_print : ∀ xs : JArr, sizeA xs ≤ (printA xs).length
  | JArr.nil => by simp [sizeA, printA]
  | JArr.cons x xs => by
      have h1 := sizeV_le_print x
      have h2 := sizeA_le_print xs
      simp only [sizeA, printA, List.length_cons, List.length_append]
      omega
theorem sizeO_le_print : ∀ fs : JObj, sizeO fs ≤ (printO fs).length
  | JObj.nil => by simp [sizeO, printO]
  | JObj.cons k v fs => by
      have h1 := sizeV_le_print v
      have h2 := sizeO_le_print fs
      simp only [sizeO, printO, List.length_cons, List.length_append]
      omega
end

/-- `JSON.parse` inverts `JSON.stringify` on binary-free values. -/
theorem jparse_jprint (v : JVal) (h : binFree v = true) : jparse (jprint v) = some v := by
  have hlen : sizeV v + 1 ≤ (printV v).length + 1 := by
    have := sizeV_le_print v
    omega
  have hmain := (parse_print_all ((printV v).length + 1)).1 v [] h hlen rfl
  rw [List.append_nil] at hmain
  simp only [jparse, jprint]
  rw [hmain]

/-! ## UTF-8 and base64 (the platform primitives used by CompressionUtils:
`TextEncoder.encode`, `btoa`, `atob`, `TextDecoder.decode`). -/

theorem char_toNat_lt (c : Char) : c.toNat < 1114112 := by
  rcases c.valid with h | ⟨_, h2⟩
  · have : c.toNat < 55296 := h
    omega
  · have : c.toNat < 1114112 := h2
    omega

def utf8Char (ch : Char) : List Nat :=
  let c := ch.toNat
  if c < 128 then [c]
  else if c < 2048 then [192 + c / 64, 128 + c % 64]
  else if c < 65536 then [224 + c / 4096, 128 + c / 64 % 64, 128 + c % 64]
  else [240 + c / 262144, 128 + c / 4096 % 64, 128 + c / 64 % 64, 128 + c % 64]

def utf8Encode : List Char → List Nat
  | [] => []
  | c :: cs => utf8Char c ++ utf8Encode cs


def utf8DecF : Nat → List Nat → Option (List Char)
  | 0, _ => none
  | _ + 1, [] => some []
  | fuel + 1, b :: bs =>
    if b < 128 then (utf8DecF fuel bs).map fun l => Char.ofNat b :: l
    else if b < 192 then none
    else if b < 224 then
      match bs with
      | b2 :: bs2 =>
          if 128 ≤ b2 ∧ b2 < 192 then
            (utf8DecF fuel bs2).map fun l => Char.ofNat ((b - 192) * 64 + (b2 - 128)) :: l
          else none
      | _ => none
    else if b < 240 then
      match bs with
      | b2 :: b3 :: bs3 =>
          if (128 ≤ b2 ∧ b2 < 192) ∧ (128 ≤ b3 ∧ b3 < 192) then
            (utf8DecF fuel bs3).map fun l =>
              Char.ofNat ((b - 224) * 4096 + (b2 - 128) * 64 + (b3 - 128)) :: l
          else none
      | _ => none
    else if b < 248 then
      match bs with
      | b2 :: b3 :: b4 :: bs4 =>
          if (128 ≤ b2 ∧ b2 < 192) ∧ (128 ≤ b3 ∧ b3 < 192) ∧ (128 ≤ b4 ∧ b4 < 192) then
            (utf8DecF fuel bs4).map fun l =>
              Char.ofNat ((b - 240) * 262144 + (b2 - 128) * 4096 + (b3 - 128) * 64 +
                (b4 - 128)) :: l
          else none
      | _ => none
    else none
  termination_by structural fuel l => fuel

/-- `TextDecoder.decode` on a UTF-8 byte sequence (any fuel beyond the byte
count is enough for the scanner). -/
def utf8Dec (bs : List Nat) : Option (List Char) := utf8DecF (bs.length + 1) bs

theorem utf8Char_lt_256 (c : Char) : ∀ b ∈ utf8Char c, b < 256 := by
  intro b hb
  have hlt := char_toNat_lt c
  simp only [utf8Char] at hb
  by_cases h1 : c.toNat < 128
  · simp [h1] at hb; omega
  · by_cases h2 : c.toNat < 2048
    · simp [h1, h2] at hb
      rcases hb with hb | hb <;> omega
    · by_cases h3 : c.toNat < 65536
      · simp [h1, h2, h3] at hb
        rcases hb with hb | hb | hb <;> omega
      · simp [h1, h2, h3] at hb
        rcases hb with hb | hb | hb | hb <;> omega

theorem utf8Encode_lt_256 : ∀ s : List Char, ∀ b ∈ utf8Encode s, b < 256
  | [] => by intro b hb; simp [utf8Encode] at hb
  | c :: cs => by
      intro b hb
      simp only [utf8Encode] at hb
      rcases List.mem_append.1 hb with h | h
      · exact utf8Char_lt_256 c b h
      · exact utf8Encode_lt_256 cs b h

theorem utf8DecF_cons (fuel : Nat) (b : Nat) (bs : List Nat) :
    utf8DecF (fuel + 1) (b :: bs) =
      (if b < 128 then (utf8DecF fuel bs).map fun l => Char.ofNat b :: l
       else if b < 192 then none
       else if b < 224 then
         match bs with
         | b2 :: bs2 =>
             if 128 ≤ b2 ∧ b2 < 192 then
               (utf8DecF fuel bs2).map fun l => Char.ofNat ((b - 192) * 64 + (b2 - 128)) :: l
             else none
         | _ => none
       else if b < 240 then
         match bs with
         | b2 :: b3 :: bs3 =>
             if (128 ≤ b2 ∧ b2 < 192) ∧ (128 ≤ b3 ∧ b3 < 192) then
               (utf8DecF fuel bs3).map fun l =>
                 Char.ofNat ((b - 224) * 4096 + (b2 - 128) * 64 + (b3 - 128)) :: l
             else none
         | _ => none
       else if b < 248 then
         match bs with
         | b2 :: b3 :: b4 :: bs4 =>
             if (128 ≤ b2 ∧ b2 < 192) ∧ (128 ≤ b3 ∧ b3 < 192) ∧ (128 ≤ b4 ∧ b4 < 192) then
               (utf8DecF fuel bs4).map fun l =>
                 Char.ofNat ((b - 240) * 262144 + (b2 - 128) * 4096 + (b3 - 128) * 64 +
                   (b4 - 128)) :: l
             else none
         | _ => none
       else none) := rfl

theorem utf8DecF_utf8Char (fuel : Nat) (c : Char) (rest : List Nat) :
    utf8DecF (fuel + 1) (utf8Char c ++ rest) = (utf8DecF fuel rest).map fun l => c :: l := by
  have hlt := char_toNat_lt c
  by_cases h1 : c.toNat < 128
  · rw [show utf8Char c = [c.toNat] from by simp [utf8Char, h1]]
    rw [List.cons_append, List.nil_append, utf8DecF_cons, if_pos h1, Char.ofNat_toNat]
  · by_cases h2 : c.toNat < 2048
    · rw [show utf8Char c = [192 + c.toNat / 64, 128 + c.toNat % 64] from by
        simp [utf8Char, h1, h2]]
      simp only [List.cons_append, List.nil_append]
      rw [utf8DecF_cons]
      rw [if_neg (by omega), if_neg (by omega), if_pos (by omega)]
      dsimp only
      rw [if_pos (by constructor <;> omega)]
      have hv : (192 + c.toNat / 64 - 192) * 64 + (128 + c.toNat % 64 - 128) = c.toNat := by
        omega
      rw [hv, Char.ofNat_toNat]
    · by_cases h3 : c.toNat < 65536
      · rw [show utf8Char c =
            [224 + c.toNat / 4096, 128 + c.toNat / 64 % 64, 128 + c.toNat % 64] from by
          simp [utf8Char, h1, h2, h3]]
        simp only [List.cons_append, List.nil_append]
        rw [utf8DecF_cons]
        rw [if_neg (by omega), if_neg (by omega), if_neg (by omega), if_pos (by omega)]
        dsimp only
        rw [if_pos (by refine ⟨⟨?_, ?_⟩, ?_, ?_⟩ <;> omega)]
        have hv : (224 + c.toNat / 4096 - 224) * 4096 + (128 + c.toNat / 64 % 64 - 128) * 64 +
            (128 + c.toNat % 64 - 128) = c.toNat := by
          omega
        rw [hv, Char.ofNat_toNat]
      · rw [show utf8Char c =
            [240 + c.toNat / 262144, 128 + c.toNat / 4096 % 64, 128 + c.toNat / 64 % 64,
              128 + c.toNat % 64] from by
          simp [utf8Char, h1, h2, h3]]
        simp only [List.cons_append, List.nil_append]
        rw [utf8DecF_cons]
        rw [if_neg (by omega), if_neg (by omega), if_neg (by omega), if_neg (by omega),
          if_pos (by omega)]
        dsimp only
        rw [if_pos (by refine ⟨⟨?_, ?_⟩, ⟨?_, ?_⟩, ?_, ?_⟩ <;> omega)]
        have hv : (240 + c.toNat / 262144 - 240) * 262144 +
            (128 + c.toNat / 4096 % 64 - 128) * 4096 +
            (128 + c.toNat / 64 % 64 - 128) * 64 + (128 + c.toNat % 64 - 128) = c.toNat := by
          omega
        rw [hv, Char.ofNat_toNat]

theorem utf8DecF_utf8Encode : ∀ (s : List Char) (fuel : Nat), s.length ≤ fuel →
    utf8DecF (fuel + 1) (utf8Encode s) = some s := by
  intro s
  induction s with
  | nil => intro fuel _; rfl
  | cons c cs ih =>
      intro fuel hlen
      simp only [List.length_cons] at hlen
      obtain ⟨fuel', rfl⟩ : ∃ fuel', fuel = fuel' + 1 := ⟨fuel - 1, by omega⟩
      rw [show utf8Encode (c :: cs) = utf8Char c ++ utf8Encode cs from rfl]
      rw [utf8DecF_utf8Char, ih fuel' (by omega)]
      rfl

theorem length_le_utf8Encode : ∀ s : List Char, s.length ≤ (utf8Encode s).length
  | [] => by simp [utf8Encode]
  | c :: cs => by
      have h1 := length_le_utf8Encode cs
      have h2 : 1 ≤ (utf8Char c).length := by
        simp only [utf8Char]
        by_cases h1 : c.toNat < 128
        · simp [h1]
        · by_cases h2 : c.toNat < 2048
          · simp [h1, h2]
          · by_cases h3 : c.toNat < 65536
            · simp [h1, h2, h3]
            · simp [h1, h2, h3]
      simp only [utf8Encode, List.length_cons, List.length_append]
      omega

theorem utf8Dec_utf8Encode (s : List Char) : utf8Dec (utf8Encode s) = some s := by
  have h := utf8DecF_utf8Encode s (utf8Encode s).length (length_le_utf8Encode s)
  exact h

def b64Char (n : Nat) : Char :=
  if n < 26 then Char.ofNat (65 + n)
  else if n < 52 then Char.ofNat (71 + n)
  else if n < 62 then Char.ofNat (n - 4)
  else if n = 62 then '+' else '/'

def b64Val (c : Char) : Option Nat :=
  if 65 ≤ c.toNat ∧ c.toNat ≤ 90 then some (c.toNat - 65)
  else if 97 ≤ c.toNat ∧ c.toNat ≤ 122 then some (c.toNat - 71)
  else if 48 ≤ c.toNat ∧ c.toNat ≤ 57 then some (c.toNat + 4)
  else if c = '+' then some 62
  else if c = '/' then some 63
  else none

/-- `btoa` over a byte sequence: standard base64 with `=` padding. -/
def b64encode : List Nat → List Char
  | [] => []
  | [a] => [b64Char (a / 4), b64Char (a % 4 * 16), '=', '=']
  | [a, b] => [b64Char (a / 4), b64Char (a % 4 * 16 + b / 16), b64Char (b % 16 * 4), '=']
  | a :: b :: c :: rest =>
      b64Char (a / 4) :: b64Char (a % 4 * 16 + b / 16) :: b64Char (b % 16 * 4 + c / 64) ::
        b64Char (c % 64) :: b64encode rest

def b64decodeF : Nat → List Char → Option (List Nat)
  | 0, _ => none
  | _ + 1, [] => some []
  | fuel + 1, c1 :: c2 :: c3 :: c4 :: rest =>
      match b64Val c1, b64Val c2 with
      | some v1, some v2 =>
        if c3 = '=' then
          if c4 = '=' then
            (if rest = [] then some [v1 * 4 + v2 / 16] else none)
          else none
        else
          match b64Val c3 with
          | some v3 =>
            if c4 = '=' then
              (if rest = [] then some [v1 * 4 + v2 / 16, v2 % 16 * 16 + v3 / 4] else none)
            else
              match b64Val c4 with
              | some v4 =>
                match b64decodeF fuel rest with
                | some more =>
                    some ((v1 * 4 + v2 / 16) :: (v2 % 16 * 16 + v3 / 4) ::
                      (v3 % 4 * 64 + v4) :: more)
                | none => none
              | none => none
          | none => none
      | _, _ => none
  | _ + 1, _ => none
  termination_by structural fuel l => fuel

/-- `atob`: strict base64 decoding, failing on malformed input. -/
def b64decode (l : List Char) : Option (List Nat) := b64decodeF (l.length + 1) l

theorem b64Val_b64Char : ∀ v, v < 64 → b64Val (b64Char v) = some v := by decide

theorem b64Char_ne_pad : ∀ v, v < 64 → b64Char v ≠ '=' := by decide

theorem b64decodeF_chunk (fuel : Nat) (c1 c2 c3 c4 : Char) (rest : List Char) :
    b64decodeF (fuel + 1) (c1 :: c2 :: c3 :: c4 :: rest) =
      (match b64Val c1, b64Val c2 with
       | some v1, some v2 =>
         if c3 = '=' then
           if c4 = '=' then
             (if rest = [] then some [v1 * 4 + v2 / 16] else none)
           else none
         else
           match b64Val c3 with
           | some v3 =>
             if c4 = '=' then
               (if rest = [] then some [v1 * 4 + v2 / 16, v2 % 16 * 16 + v3 / 4] else none)
             else
               match b64Val c4 with
               | some v4 =>
                 match b64decodeF fuel rest with
                 | some more =>
                     some ((v1 * 4 + v2 / 16) :: (v2 % 16 * 16 + v3 / 4) ::
                       (v3 % 4 * 64 + v4) :: more)
                 | none => none
               | none => none
           | none => none
       | _, _ => none) := rfl

theorem b64decodeF_b64encode : ∀ (bs : List Nat) (fuel : Nat),
    (∀ b ∈ bs, b < 256) → bs.length ≤ fuel →
    b64decodeF (fuel + 1) (b64encode bs) = some bs
  | [], _ => by intro _ _; rfl
  | [a], fuel => by
      intro hb _
      have ha : a < 256 := hb a (by simp)
      rw [show b64encode [a] = [b64Char (a / 4), b64Char (a % 4 * 16), '=', '='] from rfl]
      rw [b64decodeF_chunk]
      rw [b64Val_b64Char (a / 4) (by omega), b64Val_b64Char (a % 4 * 16) (by omega)]
      dsimp only
      rw [if_pos rfl, if_pos rfl, if_pos rfl]
      have : a / 4 * 4 + a % 4 * 16 / 16 = a := by omega
      rw [this]
  | [a, b], fuel => by
      intro hb _
      have ha : a < 256 := hb a (by simp)
      have hbb : b < 256 := hb b (by simp)
      rw [show b64encode [a, b] =
        [b64Char (a / 4), b64Char (a % 4 * 16 + b / 16), b64Char (b % 16 * 4), '='] from rfl]
      rw [b64decodeF_chunk]
      rw [b64Val_b64Char (a / 4) (by omega), b64Val_b64Char (a % 4 * 16 + b / 16) (by omega)]
      dsimp only
      rw [if_neg (b64Char_ne_pad (b % 16 * 4) (by omega))]
      rw [b64Val_b64Char (b % 16 * 4) (by omega)]
      dsimp only
      rw [if_pos rfl, if_pos rfl]
      have h1 : a / 4 * 4 + (a % 4 * 16 + b / 16) / 16 = a := by omega
      have h2 : (a % 4 * 16 + b / 16) % 16 * 16 + b % 16 * 4 / 4 = b := by omega
      rw [h1, h2]
  | a :: b :: c :: tl, fuel => by
      intro hb hlen
      have ha : a < 256 := hb a (by simp)
      have hbb : b < 256 := hb b (by simp)
      have hc : c < 256 := hb c (by simp)
      have hrest : ∀ x ∈ tl, x < 256 := fun x hx => hb x (by simp [hx])
      simp only [List.length_cons] at hlen
      obtain ⟨fuel', rfl⟩ : ∃ fuel', fuel = fuel' + 1 := ⟨fuel - 1, by omega⟩
      rw [show b64encode (a :: b :: c :: tl) =
        b64Char (a / 4) :: b64Char (a % 4 * 16 + b / 16) :: b64Char (b % 16 * 4 + c / 64) ::
          b64Char (c % 64) :: b64encode tl from rfl]
      rw [b64decodeF_chunk]
      rw [b64Val_b64Char (a / 4) (by omega), b64Val_b64Char (a % 4 * 16 + b / 16) (by omega)]
      dsimp only
      rw [if_neg (b64Char_ne_pad (b % 16 * 4 + c / 64) (by omega))]
      rw [b64Val_b64Char (b % 16 * 4 + c / 64) (by omega)]
      dsimp only
      rw [if_neg (b64Char_ne_pad (c % 64) (by omega))]
      rw [b64Val_b64Char (c % 64) (by omega)]
      dsimp only
      rw [b64decodeF_b64encode tl fuel' hrest (by omega)]
      dsimp only
      have h1 : a / 4 * 4 + (a % 4 * 16 + b / 16) / 16 = a := by omega
      have h2 : (a % 4 * 16 + b / 16) % 16 * 16 + (b % 16 * 4 + c / 64) / 4 = b := by omega
      have h3 : (b % 16 * 4 + c / 64) % 4 * 64 + c % 64 = c := by omega
      rw [h1, h2, h3]

theorem length_le_b64encode : ∀ bs : List Nat, bs.length ≤ (b64encode bs).length
  | [] => by simp [b64encode]
  | [a] => by simp [b64encode]
  | [a, b] => by simp [b64encode]
  | a :: b :: c :: rest => by
      have := length_le_b64encode rest
      rw [show b64encode (a :: b :: c :: rest) =
        b64Char (a / 4) :: b64Char (a % 4 * 16 + b / 16) :: b64Char (b % 16 * 4 + c / 64) ::
          b64Char (c % 64) :: b64encode rest from rfl]
      simp only [List.length_cons]
      omega

theorem b64decode_b64encode (bs : List Nat) (hb : ∀ b ∈ bs, b < 256) :
    b64decode (b64encode bs) = some bs := by
  exact b64decodeF_b64encode bs (b64encode bs).length hb (le_trans (length_le_b64encode bs) (le_refl _))

/-! ## CompressionUtils (utils.ts)

The `compression` option of the library: `false`, a gzip level `0`–`9`, or
`'lz4'`.  `compress` is the identity for `false` and level `0`; for every
other mode the implementation base64-encodes the UTF-8 bytes of the input
(`btoa(String.fromCharCode(...encoder.encode(data)))`) — no actual gzip/LZ4
is involved.  `decompress` inverts that, returning the input unchanged when
`atob` throws (the catch branch). -/

inductive CompressionMode where
  | off
  | level (n : Nat)
  | lz4
deriving Repr, DecidableEq

def CompressionUtils.compress (data : String) (algorithm : CompressionMode) : String :=
  match algorithm with
  | CompressionMode.off => data
  | CompressionMode.level 0 => data
  | _ => String.mk (b64encode (utf8Encode data.data))

def CompressionUtils.decompress (data : String) (algorithm : CompressionMode) : String :=
  match algorithm with
  | CompressionMode.off => data
  | CompressionMode.level 0 => data
  | _ =>
      match b64decode data.data with
      | none => data
      | some bytes =>
          match utf8Dec bytes with
          | some chars => String.mk chars
          | none => data

theorem decompress_compress (data : String) (c : CompressionMode) :
    CompressionUtils.decompress (CompressionUtils.compress data c) c = data := by
  have hcore : CompressionUtils.decompress
      (String.mk (b64encode (utf8Encode data.data))) c =
      CompressionUtils.decompress (String.mk (b64encode (utf8Encode data.data))) c := rfl
  have henc : b64decode (String.mk (b64encode (utf8Encode data.data))).data =
      some (utf8Encode data.data) :=
    b64decode_b64encode (utf8Encode data.data) (utf8Encode_lt_256 data.data)
  cases c with
  | off => rfl
  | lz4 =>
      simp only [CompressionUtils.compress, CompressionUtils.decompress]
      rw [henc]
      dsimp only
      rw [utf8Dec_utf8Encode data.data]
  | level n =>
      cases n with
      | zero => rfl
      | succ m =>
          simp only [CompressionUtils.compress, CompressionUtils.decompress]
          rw [henc]
          dsimp only
          rw [utf8Dec_utf8Encode data.data]

/-! ## BufferJSON (utils.ts) and the serialize/deserialize codec

`JSON.stringify(data, BufferJSON.replacer)` applies the replacer top-down
before printing; `JSON.parse(data, BufferJSON.reviver)` applies the reviver
bottom-up after parsing.  `bjReplace`/`bjRevive` are those traversals over
the tree.  The replacer turns a `Buffer`-tagged object (`type === 'Buffer'`
with an array `data`) into the canonical two-field tag (dropping any other
fields), and binary payloads (`Uint8Array`/`Buffer`, whose `toJSON` yields
the same tag) likewise; the reviver turns every such tag back into a binary
payload. -/

def bjTaggedData (fs : JObj) : Option JArr :=
  match fs.lookup "type" with
  | some (JVal.jstr s) =>
      if s = "Buffer" then
        match fs.lookup "data" with
        | some (JVal.jarr l) => some l
        | _ => none
      else none
  | _ => none

mutual
def bjReplace : JVal → JVal
  | JVal.jnull => JVal.jnull
  | JVal.jbool b => JVal.jbool b
  | JVal.jnum n => JVal.jnum n
  | JVal.jstr s => JVal.jstr s
  | JVal.jbin bs => JVal.jobj (JObj.cons "type" (JVal.jstr "Buffer")
      (JObj.cons "data" (JVal.jarr (bytesArr bs)) JObj.nil))
  | JVal.jarr xs => JVal.jarr (bjReplaceA xs)
  | JVal.jobj fs =>
      if (bjTaggedData fs).isSome then
        match (bjReplaceO fs).lookup "data" with
        | some (JVal.jarr l) => JVal.jobj (JObj.cons "type" (JVal.jstr "Buffer")
            (JObj.cons "data" (JVal.jarr l) JObj.nil))
        | _ => JVal.jobj (bjReplaceO fs)
      else JVal.jobj (bjReplaceO fs)
def bjReplaceA : JArr → JArr
  | JArr.nil => JArr.nil
  | JArr.cons x xs => JArr.cons (bjReplace x) (bjReplaceA xs)
def bjReplaceO : JObj → JObj
  | JObj.nil => JObj.nil
  | JObj.cons k v fs => JObj.cons k (bjReplace v) (bjReplaceO fs)
end

def bjReviveTag (fs : JObj) : Option (List Nat) :=
  match fs.lookup "type" with
  | some (JVal.jstr s) =>
      if s = "Buffer" then
        match fs.lookup "data" with
        | some (JVal.jarr l) => some (bytesOf l)
        | _ => none
      else none
  | _ => none

mutual
def bjRevive : JVal → JVal
  | JVal.jnull => JVal.jnull
  | JVal.jbool b => JVal.jbool b
  | JVal.jnum n => JVal.jnum n
  | JVal.jstr s => JVal.jstr s
  | JVal.jbin bs => JVal.jbin bs
  | JVal.jarr xs => JVal.jarr (bjReviveA xs)
  | JVal.jobj fs =>
      match bjReviveTag (bjReviveO fs) with
      | some bs => JVal.jbin bs
      | none => JVal.jobj (bjReviveO fs)
def bjReviveA : JArr → JArr
  | JArr.nil => JArr.nil
  | JArr.cons x xs => JArr.cons (bjRevive x) (bjReviveA xs)
def bjReviveO : JObj → JObj
  | JObj.nil => JObj.nil
  | JObj.cons k v fs => JObj.cons k (bjRevive v) (bjReviveO fs)
end

/-! `bjGood`: values on which the BufferJSON codec is injective — byte
payloads are bytes, and no object subvalue itself carries the `Buffer` tag
shape (such an object deserializes to a binary payload instead of itself). -/

mutual
def bjGood : JVal → Bool
  | JVal.jnull => true
  | JVal.jbool _ => true
  | JVal.jnum _ => true
  | JVal.jstr _ => true
  | JVal.jbin bs => bs.all fun b => b < 256
  | JVal.jarr xs => bjGoodA xs
  | JVal.jobj fs => !(bjTaggedData fs).isSome && bjGoodO fs
def bjGoodA : JArr → Bool
  | JArr.nil => true
  | JArr.cons x xs => bjGood x && bjGoodA xs
def bjGoodO : JObj → Bool
  | JObj.nil => true
  | JObj.cons _ v fs => bjGood v && bjGoodO fs
end

theorem bjReplaceA_bytesArr : ∀ bs : List Nat, bjReplaceA (bytesArr bs) = bytesArr bs
  | [] => rfl
  | b :: bs => by
      simp only [bytesArr, bjReplaceA, bjReplace]
      rw [bjReplaceA_bytesArr bs]

theorem bjReviveA_bytesArr : ∀ bs : List Nat, bjReviveA (bytesArr bs) = bytesArr bs
  | [] => rfl
  | b :: bs => by
      simp only [bytesArr, bjReviveA, bjRevive]
      rw [bjReviveA_bytesArr bs]

theorem bytesOf_bytesArr : ∀ bs : List Nat, (∀ b ∈ bs, b < 256) →
    bytesOf (bytesArr bs) = bs
  | [] => by intro _; rfl
  | b :: bs => by
      intro h
      have hb : b < 256 := h b (by simp)
      have ht := bytesOf_bytesArr bs (fun x hx => h x (by simp [hx]))
      simp only [bytesArr, bytesOf, coerceByte, ht]
      have : (Int.ofNat b % 256).toNat = b := by
        rw [Int.ofNat_eq_coe]
        omega
      rw [this]

theorem bjReviveTag_tag (l : JArr) :
    bjReviveTag (JObj.cons "type" (JVal.jstr "Buffer")
      (JObj.cons "data" (JVal.jarr l) JObj.nil)) = some (bytesOf l) := rfl

theorem bjReviveTag_none (fs : JObj) (h : bjTaggedData fs = none) :
    bjReviveTag fs = none := by
  simp only [bjTaggedData] at h
  simp only [bjReviveTag]
  rcases ht : fs.lookup "type" with _ | v
  · rfl
  · cases v with
    | jstr s =>
        rw [ht] at h
        dsimp only at h ⊢
        by_cases hs : s = "Buffer"
        · rw [if_pos hs] at h
          rw [if_pos hs]
          rcases hd : fs.lookup "data" with _ | w
          · rfl
          · rw [hd] at h
            cases w <;> simp_all
        · rw [if_neg hs]
    | jnull => rfl
    | jbool b => rfl
    | jnum n => rfl
    | jarr xs => rfl
    | jobj fs2 => rfl
    | jbin bs => rfl

theorem binFreeA_bytesArr : ∀ bs : List Nat, binFreeA (bytesArr bs) = true
  | [] => rfl
  | b :: bs => by
      simp only [bytesArr, binFreeA, binFree]
      rw [binFreeA_bytesArr bs]
      rfl

theorem binFree_lookup : ∀ (fs : JObj) (k : String) (v : JVal),
    binFreeO fs = true → fs.lookup k = some v → binFree v = true
  | JObj.nil, k, v => by intro _ hl; simp [JObj.lookup] at hl
  | JObj.cons k' v' tl, k, v => by
      intro hbf hl
      simp only [binFreeO, Bool.and_eq_true] at hbf
      simp only [JObj.lookup] at hl
      by_cases hk : k' = k
      · rw [if_pos hk] at hl
        injection hl with hl
        rw [← hl]
        exact hbf.1
      · rw [if_neg hk] at hl
        exact binFree_lookup tl k v hbf.2 hl

mutual
theorem binFree_bjReplace : ∀ v : JVal, binFree (bjReplace v) = true
  | JVal.jnull => rfl
  | JVal.jbool b => rfl
  | JVal.jnum n => rfl
  | JVal.jstr s => rfl
  | JVal.jbin bs => by
      simp only [bjReplace, binFree, binFreeO]
      rw [binFreeA_bytesArr bs]
      rfl
  | JVal.jarr xs => by
      simp only [bjReplace, binFree]
      exact binFreeA_bjReplaceA xs
  | JVal.jobj fs => by
      simp only [bjReplace]
      by_cases ht : (bjTaggedData fs).isSome
      · rw [if_pos ht]
        rcases hd : (bjReplaceO fs).lookup "data" with _ | w
        · simp only [binFree]
          exact binFreeO_bjReplaceO fs
        · cases w with
          | jarr l =>
              have hl : binFree (JVal.jarr l) = true :=
                binFree_lookup (bjReplaceO fs) "data" (JVal.jarr l)
                  (binFreeO_bjReplaceO fs) hd
              simp only [binFree, binFreeO]
              simp only [binFree] at hl
              rw [hl]
              rfl
          | jnull => simp only [binFree]; exact binFreeO_bjReplaceO fs
          | jbool b => simp only [binFree]; exact binFreeO_bjReplaceO fs
          | jnum n => simp only [binFree]; exact binFreeO_bjReplaceO fs
          | jstr s => simp only [binFree]; exact binFreeO_bjReplaceO fs
          | jobj fs2 => simp only [binFree]; exact binFreeO_bjReplaceO fs
          | jbin bs => simp only [binFree]; exact binFreeO_bjReplaceO fs
      · rw [if_neg ht]
        simp only [binFree]
        exact binFreeO_bjReplaceO fs
theorem binFreeA_bjReplaceA : ∀ xs : JArr, binFreeA (bjReplaceA xs) = true
  | JArr.nil => rfl
  | JArr.cons x xs => by
      simp only [bjReplaceA, binFreeA]
      rw [binFree_bjReplace x, binFreeA_bjReplaceA xs]
      rfl
theorem binFreeO_bjReplaceO : ∀ fs : JObj, binFreeO (bjReplaceO fs) = true
  | JObj.nil => rfl
  | JObj.cons k v tl => by
      simp only [bjReplaceO, binFreeO]
      rw [binFree_bjReplace v, binFreeO_bjReplaceO tl]
      rfl
end

mutual
theorem bjRevive_bjReplace : ∀ v : JVal, bjGood v = true → bjRevive (bjReplace v) = v
  | JVal.jnull, _ => rfl
  | JVal.jbool b, _ => rfl
  | JVal.jnum n, _ => rfl
  | JVal.jstr s, _ => rfl
  | JVal.jbin bs, h => by
      have hb : ∀ b ∈ bs, b < 256 := by
        simpa [bjGood, List.all_eq_true, decide_eq_true_eq] using h
      simp only [bjReplace, bjRevive, bjReviveO, bjReviveA]
      rw [bjReviveA_bytesArr]
      rw [bjReviveTag_tag]
      rw [bytesOf_bytesArr bs hb]
  | JVal.jarr xs, h => by
      simp only [bjReplace, bjRevive]
      rw [bjReviveA_bjReplaceA xs (by simpa [bjGood] using h)]
  | JVal.jobj fs, h => by
      have h1 : (bjTaggedData fs).isSome = false ∧ bjGoodO fs = true := by
        have := h
        simp only [bjGood, Bool.and_eq_true, Bool.not_eq_true'] at this
        exact this
      simp only [bjReplace]
      rw [if_neg (by rw [h1.1]; exact Bool.false_ne_true)]
      simp only [bjRevive]
      rw [bjReviveO_bjReplaceO fs h1.2]
      rw [bjReviveTag_none fs (Option.not_isSome_iff_eq_none.1 (by rw [h1.1]; exact Bool.false_ne_true))]
theorem bjReviveA_bjReplaceA : ∀ xs : JArr, bjGoodA xs = true →
    bjReviveA (bjReplaceA xs) = xs
  | JArr.nil, _ => rfl
  | JArr.cons x xs, h => by
      have h' : bjGood x = true ∧ bjGoodA xs = true := by
        simpa [bjGoodA] using h
      simp only [bjReplaceA, bjReviveA]
      rw [bjRevive_bjReplace x h'.1, bjReviveA_bjReplaceA xs h'.2]
theorem bjReviveO_bjReplaceO : ∀ fs : JObj, bjGoodO fs = true →
    bjReviveO (bjReplaceO fs) = fs
  | JObj.nil, _ => rfl
  | JObj.cons k v tl, h => by
      have h' : bjGood v = true ∧ bjGoodO tl = true := by
        simpa [bjGoodO] using h
      simp only [bjReplaceO, bjReviveO]
      rw [bjRevive_bjReplace v h'.1, bjReviveO_bjReplaceO tl h'.2]
end

/-- `serialize` (utils.ts): stringify with the BufferJSON replacer, then the
compression stage. -/
def serialize (data : JVal) (compression : CompressionMode) : String :=
  CompressionUtils.compress (jprint (bjReplace data)) compression

/-- `deserialize` (utils.ts): decompress, then parse with the BufferJSON
reviver; a parse failure is the thrown `JSON.parse` exception. -/
def deserialize (data : String) (compression : CompressionMode) : Option JVal :=
  (jparse (CompressionUtils.decompress data compression)).map bjRevive

/-- C2 amended: the serialize/deserialize round trip holds for every
compression mode and every value of nested structures and binary payloads
whose objects do not themselves carry the `Buffer` tag shape. -/
theorem serialize_deserialize_roundtrip (v : JVal) (c : CompressionMode)
    (h : bjGood v = true) : deserialize (serialize v c) c = some v := by
  simp only [serialize, deserialize]
  rw [decompress_compress]
  rw [jparse_jprint (bjReplace v) (binFree_bjReplace v)]
  simp only [Option.map_some']
  rw [bjRevive_bjReplace v h]

/-- C2 witness: a value with a nested object, a quoted-and-escaped string, a
negative number and a binary payload round-trips under 'lz4' compression. -/
theorem serialize_deserialize_roundtrip_witness :
    deserialize
      (serialize
        (JVal.jarr (JArr.cons (JVal.jbin [0, 255, 10])
          (JArr.cons (JVal.jobj (JObj.cons "a\"b" (JVal.jstr "x\\y")
            (JObj.cons "n" (JVal.jnum (-42)) JObj.nil)))
          JArr.nil)))
        CompressionMode.lz4)
      CompressionMode.lz4 =
      some (JVal.jarr (JArr.cons (JVal.jbin [0, 255, 10])
        (JArr.cons (JVal.jobj (JObj.cons "a\"b" (JVal.jstr "x\\y")
          (JObj.cons "n" (JVal.jnum (-42)) JObj.nil)))
        JArr.nil))) :=
  serialize_deserialize_roundtrip
    (JVal.jarr (JArr.cons (JVal.jbin [0, 255, 10])
      (JArr.cons (JVal.jobj (JObj.cons "a\"b" (JVal.jstr "x\\y")
        (JObj.cons "n" (JVal.jnum (-42)) JObj.nil)))
      JArr.nil)))
    CompressionMode.lz4 rfl

/-- C2 counterexample: a plain object that happens to carry the `Buffer` tag
shape does not round-trip — it deserializes to a binary payload, so the
claim `deserialize (serialize v c) c = v` fails for every v of this shape. -/
theorem serialize_deserialize_not_injective :
    deserialize
      (serialize (JVal.jobj (JObj.cons "type" (JVal.jstr "Buffer")
        (JObj.cons "data" (JVal.jarr JArr.nil) JObj.nil))) CompressionMode.off)
      CompressionMode.off = some (JVal.jbin []) ∧
    some (JVal.jbin []) ≠
      some (JVal.jobj (JObj.cons "type" (JVal.jstr "Buffer")
        (JObj.cons "data" (JVal.jarr JArr.nil) JObj.nil))) := by
  constructor
  · rfl
  · intro hc
    injection hc with hc
    exact JVal.noConfusion hc

/-! ## fastSerialize / fastDeserialize (the main module's inline codec)

`fastSerialize` is `JSON.stringify` with an inline replacer: any object whose
constructor is `Buffer` or whose `type` field is the string `'Buffer'` is
replaced by a two-field tag whose `data` is `Array.from(value.data || value)`.
(`toJSON` of a real binary payload fires first and yields exactly that tag
with `data` its byte array, so payloads land in the same branch.)
`Array.from` copies an array (the copy's elements are then stringified
recursively), turns a binary payload into its byte numbers, a string into
its one-character strings, and — for every other field value that occurs in
auth data (numbers, booleans, null, plain length-less objects, or the falsy
fallback to the non-iterable tag object itself) — the empty array.

`fastDeserialize` is `JSON.parse` with an inline reviver: any object whose
`type` field is `'Buffer'` becomes `Buffer.from(value.data)`, which copies an
array bytewise, decodes a string as UTF-8, copies a binary payload, reads an
object through its numeric `length` and index fields, and throws on anything
else (`null`, numbers, booleans, a missing field) — an exception that
`JSON.parse` propagates, so the result is an `Option`. -/

def fastTagged (fs : JObj) : Bool :=
  match fs.lookup "type" with
  | some (JVal.jstr s) => s = "Buffer"
  | _ => false

/-- `Array.from` of a string: its characters as one-character strings. -/
def strChars : List Char → JArr
  | [] => JArr.nil
  | c :: cs => JArr.cons (JVal.jstr (String.mk [c])) (strChars cs)

/-- A JavaScript numeric index used as a property key. -/
def natKey (n : Nat) : String := String.mk (printNat n)

/-- Array-like read performed by `Buffer.from` on an object with a numeric
`length`: bytes at index keys `0..len-1`, absent indices reading 0. -/
def arrayLikeBytes (o : JObj) (len : Nat) : List Nat :=
  (List.range len).map fun i =>
    match o.lookup (natKey i) with
    | some v => coerceByte v
    | none => 0

mutual
def fastReplace : JVal → JVal
  | JVal.jnull => JVal.jnull
  | JVal.jbool b => JVal.jbool b
  | JVal.jnum n => JVal.jnum n
  | JVal.jstr s => JVal.jstr s
  | JVal.jbin bs => JVal.jobj (JObj.cons "type" (JVal.jstr "Buffer")
      (JObj.cons "data" (JVal.jarr (bytesArr bs)) JObj.nil))
  | JVal.jarr xs => JVal.jarr (fastReplaceA xs)
  | JVal.jobj fs =>
      if fastTagged fs then
        JVal.jobj (JObj.cons "type" (JVal.jstr "Buffer")
          (JObj.cons "data"
            (match fs.lookup "data", (fastReplaceO fs).lookup "data" with
             | some (JVal.jarr _), some (JVal.jarr l) => JVal.jarr l
             | some (JVal.jbin bs), _ => JVal.jarr (bytesArr bs)
             | some (JVal.jstr s), _ => JVal.jarr (strChars s.data)
             | _, _ => JVal.jarr JArr.nil)
            JObj.nil))
      else JVal.jobj (fastReplaceO fs)
def fastReplaceA : JArr → JArr
  | JArr.nil => JArr.nil
  | JArr.cons x xs => JArr.cons (fastReplace x) (fastReplaceA xs)
def fastReplaceO : JObj → JObj
  | JObj.nil => JObj.nil
  | JObj.cons k v fs => JObj.cons k (fastReplace v) (fastReplaceO fs)
end

mutual
def fastRevive : JVal → Option JVal
  | JVal.jnull => some JVal.jnull
  | JVal.jbool b => some (JVal.jbool b)
  | JVal.jnum n => some (JVal.jnum n)
  | JVal.jstr s => some (JVal.jstr s)
  | JVal.jbin bs => some (JVal.jbin bs)
  | JVal.jarr xs =>
      match fastReviveA xs with
      | some xs2 => some (JVal.jarr xs2)
      | none => none
  | JVal.jobj fs =>
      match fastReviveO fs with
      | some fs2 =>
          if fastTagged fs2 then
            match fs2.lookup "data" with
            | some (JVal.jarr l) => some (JVal.jbin (bytesOf l))
            | some (JVal.jstr s) => some (JVal.jbin (utf8Encode s.data))
            | some (JVal.jbin bs) => some (JVal.jbin bs)
            | some (JVal.jobj o) =>
                match o.lookup "length" with
                | some (JVal.jnum len) => some (JVal.jbin (arrayLikeBytes o len.toNat))
                | _ => none
            | _ => none
          else some (JVal.jobj fs2)
      | none => none
def fastReviveA : JArr → Option JArr
  | JArr.nil => some JArr.nil
  | JArr.cons x xs =>
      match fastRevive x with
      | none => none
      | some x2 =>
          match fastReviveA xs with
          | none => none
          | some xs2 => some (JArr.cons x2 xs2)
def fastReviveO : JObj → Option JObj
  | JObj.nil => some JObj.nil
  | JObj.cons k v fs =>
      match fastRevive v with
      | none => none
      | some v2 =>
          match fastReviveO fs with
          | none => none
          | some fs2 => some (JObj.cons k v2 fs2)
end

/-! `fastGood`: values on which the fast codec round-trips — byte payloads
are bytes, and no object subvalue carries a `type` field equal to `'Buffer'`
(for those the reviver produces a binary payload instead). -/

mutual
def fastGood : JVal → Bool
  | JVal.jnull => true
  | JVal.jbool _ => true
  | JVal.jnum _ => true
  | JVal.jstr _ => true
  | JVal.jbin bs => bs.all fun b => b < 256
  | JVal.jarr xs => fastGoodA xs
  | JVal.jobj fs => !(fastTagged fs) && fastGoodO fs
def fastGoodA : JArr → Bool
  | JArr.nil => true
  | JArr.cons x xs => fastGood x && fastGoodA xs
def fastGoodO : JObj → Bool
  | JObj.nil => true
  | JObj.cons _ v fs => fastGood v && fastGoodO fs
end

/-- `fastSerialize` (main module). -/
def fastSerialize (data : JVal) : String := jprint (fastReplace data)

/-- `fastDeserialize` (main module); `none` is a thrown parse or revive
exception. -/
def fastDeserialize (data : String) : Option JVal :=
  (jparse data).bind fastRevive

theorem fastReviveA_bytesArr : ∀ bs : List Nat, fastReviveA (bytesArr bs) = some (bytesArr bs)
  | [] => rfl
  | b :: bs => by
      simp only [bytesArr, fastReviveA, fastRevive]
      rw [fastReviveA_bytesArr bs]

theorem binFreeA_strChars : ∀ cs : List Char, binFreeA (strChars cs) = true
  | [] => rfl
  | c :: cs => by
      simp only [strChars, binFreeA, binFree]
      rw [binFreeA_strChars cs]
      rfl

mutual
theorem binFree_fastReplace : ∀ v : JVal, binFree (fastReplace v) = true
  | JVal.jnull => rfl
  | JVal.jbool b => rfl
  | JVal.jnum n => rfl
  | JVal.jstr s => rfl
  | JVal.jbin bs => by
      simp only [fastReplace, binFree, binFreeO]
      rw [binFreeA_bytesArr bs]
      rfl
  | JVal.jarr xs => by
      simp only [fastReplace, binFree]
      exact binFreeA_fastReplaceA xs
  | JVal.jobj fs => by
      simp only [fastReplace]
      by_cases ht : fastTagged fs
      · rw [if_pos ht]
        simp only [binFree, binFreeO]
        rcases h1 : fs.lookup "data" with _ | v
        · rfl
        · cases v with
          | jarr l =>
              rcases h2 : (fastReplaceO fs).lookup "data" with _ | w
              · rfl
              · cases w with
                | jarr l2 =>
                    have hl : binFree (JVal.jarr l2) = true :=
                      binFree_lookup (fastReplaceO fs) "data" (JVal.jarr l2)
                        (binFreeO_fastReplaceO fs) h2
                    simp only [binFree] at hl
                    dsimp only
                    simp only [binFree]
                    rw [hl]
                    rfl
                | jnull => rfl
                | jbool b => rfl
                | jnum n => rfl
                | jstr s => rfl
                | jobj o => rfl
                | jbin bs => rfl
          | jbin bs =>
              dsimp only
              simp only [binFree]
              rw [binFreeA_bytesArr bs]
              rfl
          | jstr s =>
              dsimp only
              simp only [binFree]
              rw [binFreeA_strChars s.data]
              rfl
          | jnull => rfl
          | jbool b => rfl
          | jnum n => rfl
          | jobj o => rfl
      · rw [if_neg ht]
        simp only [binFree]
        exact binFreeO_fastReplaceO fs
theorem binFreeA_fastReplaceA : ∀ xs : JArr, binFreeA (fastReplaceA xs) = true
  | JArr.nil => rfl
  | JArr.cons x xs => by
      simp only [fastReplaceA, binFreeA]
      rw [binFree_fastReplace x, binFreeA_fastReplaceA xs]
      rfl
theorem binFreeO_fastReplaceO : ∀ fs : JObj, binFreeO (fastReplaceO fs) = true
  | JObj.nil => rfl
  | JObj.cons k v tl => by
      simp only [fastReplaceO, binFreeO]
      rw [binFree_fastReplace v, binFreeO_fastReplaceO tl]
      rfl
end

theorem fastRevive_tag (l : JArr) (hrev : fastReviveA l = some l) :
    fastRevive (JVal.jobj (JObj.cons "type" (JVal.jstr "Buffer")
      (JObj.cons "data" (JVal.jarr l) JObj.nil))) =
      some (JVal.jbin (bytesOf l)) := by
  simp only [fastRevive, fastReviveO]
  rw [hrev]
  rfl

mutual
theorem fastRevive_fastReplace : ∀ v : JVal, fastGood v = true →
    fastRevive (fastReplace v) = some v
  | JVal.jnull, _ => rfl
  | JVal.jbool b, _ => rfl
  | JVal.jnum n, _ => rfl
  | JVal.jstr s, _ => rfl
  | JVal.jbin bs, h => by
      have hb : ∀ b ∈ bs, b < 256 := by
        simpa [fastGood, List.all_eq_true, decide_eq_true_eq] using h
      have := fastRevive_tag (bytesArr bs) (fastReviveA_bytesArr bs)
      simp only [fastReplace]
      rw [this, bytesOf_bytesArr bs hb]
  | JVal.jarr xs, h => by
      simp only [fastReplace, fastRevive]
      rw [fastReviveA_fastReplaceA xs (by simpa [fastGood] using h)]
  | JVal.jobj fs, h => by
      have h1 : fastTagged fs = false ∧ fastGoodO fs = true := by
        have := h
        simp only [fastGood, Bool.and_eq_true, Bool.not_eq_true'] at this
        exact this
      simp only [fastReplace]
      rw [if_neg (by rw [h1.1]; exact Bool.false_ne_true)]
      simp only [fastRevive]
      rw [fastReviveO_fastReplaceO fs h1.2]
      dsimp only
      rw [if_neg (by rw [h1.1]; exact Bool.false_ne_true)]
theorem fastReviveA_fastReplaceA : ∀ xs : JArr, fastGoodA xs = true →
    fastReviveA (fastReplaceA xs) = some xs
  | JArr.nil, _ => rfl
  | JArr.cons x xs, h => by
      have h2 : fastGood x = true ∧ fastGoodA xs = true := by
        simpa [fastGoodA] using h
      simp only [fastReplaceA, fastReviveA]
      rw [fastRevive_fastReplace x h2.1]
      dsimp only
      rw [fastReviveA_fastReplaceA xs h2.2]
theorem fastReviveO_fastReplaceO : ∀ fs : JObj, fastGoodO fs = true →
    fastReviveO (fastReplaceO fs) = some fs
  | JObj.nil, _ => rfl
  | JObj.cons k v tl, h => by
      have h2 : fastGood v = true ∧ fastGoodO tl = true := by
        simpa [fastGoodO] using h
      simp only [fastReplaceO, fastReviveO]
      rw [fastRevive_fastReplace v h2.1]
      dsimp only
      rw [fastReviveO_fastReplaceO tl h2.2]
end

/-- The fast codec round-trips on values whose objects do not themselves
look like `Buffer` tags and whose payloads are bytes. -/
theorem fastDeserialize_fastSerialize (v : JVal) (h : fastGood v = true) :
    fastDeserialize (fastSerialize v) = some v := by
  simp only [fastSerialize, fastDeserialize]
  rw [jparse_jprint (fastReplace v) (binFree_fastReplace v)]
  rw [Option.some_bind]
  exact fastRevive_fastReplace v h

/-- A serialized value is never the empty string (so the falsy guard
`if (!data) return null` in `readData` never fires on stored data). -/
theorem fastSerialize_ne_empty (v : JVal) : fastSerialize v ≠ "" := by
  simp only [fastSerialize, jprint]
  obtain ⟨c, cs, hp, _⟩ := printV_head (fastReplace v)
  rw [hp]
  intro hc
  have hd := congrArg String.data hc
  simp at hd

/-! ## The session layer (useRedisAuthState, module registries, cleanupSession)

`useRedisAuthState(options)` destructures the options — `keyPrefix`
(modelled as `keyPfx`), `sessionId`, `ttl`, `compression`, `enableBatching`,
`batchSize`, `poolSize`, `memoryEfficient`, `enableCache`, `cacheTTL` — and
closes over a session cache obtained from the module-level `sessionCaches`
registry.  The registry entry and the captured cache alias the same map, so
closure mutations are modelled directly on the registry entry.  The system
state is the remote keyspace plus the two module-level registries; expiry
metadata of remote keys is not part of the state (no claim reads it back).
The destructured `compression` and `memoryEfficient` options are dead, and
the `BatchOperationManager` built when `enableBatching` is true is never
called by `readData`/`writeData`, so none of those four options occurs in
the definitions below. -/

structure AuthConfig where
  keyPfx : String
  sessionId : String
  ttl : Option Nat
  compression : CompressionMode
  enableBatching : Bool
  batchSize : Nat
  poolSize : Nat
  memoryEfficient : Bool
  enableCache : Bool
  cacheTTL : Nat

structure SysState where
  store : String → Option String
  sessionCaches : String → Option (SessionCache JVal)
  sessionPools : String → Option RedisConnectionPool

/-- `getSessionCache`: look up the session's cache in the module registry,
registering a fresh empty one on a miss. -/
def getSessionCache (st : SysState) (sessionId : String) :
    SessionCache JVal × SysState :=
  match st.sessionCaches sessionId with
  | some cache => (cache, st)
  | none =>
      ((fun _ => none),
       { st with sessionCaches :=
           fun s => if s = sessionId then some (fun _ => none)
                    else st.sessionCaches s })

/-- The cache a live session's closures operate on (the registry entry,
empty when absent). -/
def sessionCacheOf (st : SysState) (sessionId : String) : SessionCache JVal :=
  match st.sessionCaches sessionId with
  | some cache => cache
  | none => fun _ => none

def setSessionCache (st : SysState) (sessionId : String) (c : SessionCache JVal) :
    SysState :=
  { st with sessionCaches :=
      fun s => if s = sessionId then some c else st.sessionCaches s }

/-- `getRedisKey` (closure over `sessionKey`): the namespaced store key. -/
def getRedisKey (cfg : AuthConfig) (key : String) : String :=
  cfg.keyPfx ++ cfg.sessionId ++ ":" ++ key

/-- `cleanupSession`: drop the session's cache registry entry, and destroy
and drop its pool when registered.  No store command is issued. -/
def cleanupSession (st : SysState) (sessionId : String) : SysState :=
  let st1 := { st with sessionCaches :=
      fun s => if s = sessionId then none else st.sessionCaches s }
  match st1.sessionPools sessionId with
  | some _ =>
      { st1 with sessionPools :=
          fun s => if s = sessionId then none else st1.sessionPools s }
  | none => st1

/-- The body of `readData` given what `redis.get` answered for the
namespaced key: cache hit short-circuits; a falsy (absent or empty) reply is
null; a deserialization throw is caught to null; a parsed value is cached. -/
def readDataCore (cfg : AuthConfig) (fetched : Option String)
    (cache : SessionCache JVal) (cacheKey : String) (now : Nat) :
    Option JVal × SessionCache JVal :=
  match getCachedData cfg.enableCache cfg.cacheTTL cache cacheKey now with
  | (some cached, cache2) => (some cached, cache2)
  | (none, cache2) =>
      match fetched with
      | none => (none, cache2)
      | some data =>
          if data = "" then (none, cache2)
          else
            match fastDeserialize data with
            | none => (none, cache2)
            | some parsed =>
                (some parsed, setCachedData cfg.enableCache cache2 cacheKey parsed now)

/-- `readData` over the system state. -/
def readData (cfg : AuthConfig) (st : SysState) (key : String) (now : Nat) :
    Option JVal × SysState :=
  let cacheKey := getRedisKey cfg key
  let r := readDataCore cfg (st.store cacheKey) (sessionCacheOf st cfg.sessionId)
    cacheKey now
  (r.1, setSessionCache st cfg.sessionId r.2)

def effKey : WriteEffect → String
  | WriteEffect.expiry k _ _ => k
  | WriteEffect.plain k _ => k

def effVal : WriteEffect → String
  | WriteEffect.expiry _ v _ => v
  | WriteEffect.plain _ v => v

def applyWrite (store : String → Option String) (eff : WriteEffect) :
    String → Option String :=
  fun k => if k = effKey eff then some (effVal eff) else store k

/-- A bare `redis.set(key, value)` call. -/
def plainSet (redis : RedisClientShape) (key value : String) :
    Except String WriteEffect :=
  if redis.hasSet = false ∨ redis.plainSetFails then Except.error "set failed"
  else Except.ok (WriteEffect.plain key value)

/-- The store command `writeData` issues: `setWithExpiration` when a
positive ttl was configured (`if (ttl && ttl > 0)`), otherwise a plain set. -/
def writeAttempt (cfg : AuthConfig) (redis : RedisClientShape)
    (redisKey value : String) : Except String WriteEffect :=
  match cfg.ttl with
  | some t =>
      if 0 < t then
        match setWithExpiration redis redisKey value t with
        | Except.ok r => Except.ok r.1
        | Except.error e => Except.error e
      else plainSet redis redisKey value
  | none => plainSet redis redisKey value

/-- `writeData`: serialize with `fastSerialize`, issue the store write, then
update the session cache with the unserialized value; a thrown store error
is re-thrown after the error log (and skips the cache update). -/
def writeData (cfg : AuthConfig) (redis : RedisClientShape) (st : SysState)
    (data : JVal) (key : String) (now : Nat) : Except String SysState :=
  let redisKey := getRedisKey cfg key
  match writeAttempt cfg redis redisKey (fastSerialize data) with
  | Except.error e => Except.error e
  | Except.ok eff =>
      let st1 := setSessionCache st cfg.sessionId
        (setCachedData cfg.enableCache (sessionCacheOf st cfg.sessionId) redisKey data now)
      Except.ok { st1 with store := applyWrite st.store eff }

theorem sweTry_shape (c : RedisClientShape) (key value : String) (ttl : Nat)
    (r : WriteEffect × Bool) (h : sweTry c key value ttl = Except.ok r) :
    r.1 = WriteEffect.expiry key value ttl ∨ r.1 = WriteEffect.plain key value := by
  unfold sweTry at h
  cases hdet : detectRedisClient c <;> rw [hdet] at h <;> dsimp only at h
  case ioredis =>
    split at h
    · exact Except.noConfusion h
    · injection h with h2
      rw [← h2]
      exact Or.inl rfl
  case nodeRedis =>
    split at h
    · split at h
      · exact Except.noConfusion h
      · injection h with h2
        rw [← h2]
        exact Or.inl rfl
    · exact Except.noConfusion h
  case unknownClient =>
    split at h
    · exact Except.noConfusion h
    · injection h with h2
      rw [← h2]
      exact Or.inr rfl

theorem setWithExpiration_shape (c : RedisClientShape) (key value : String)
    (ttl : Nat) (r : WriteEffect × Bool)
    (h : setWithExpiration c key value ttl = Except.ok r) :
    r.1 = WriteEffect.expiry key value ttl ∨ r.1 = WriteEffect.plain key value := by
  unfold setWithExpiration at h
  rcases hs : sweTry c key value ttl with e | r2
  · rw [hs] at h
    dsimp only at h
    split at h
    · exact Except.noConfusion h
    · injection h with h2
      rw [← h2]
      exact Or.inr rfl
  · rw [hs] at h
    dsimp only at h
    injection h with h2
    rw [← h2]
    exact sweTry_shape c key value ttl r2 hs

theorem writeAttempt_shape (cfg : AuthConfig) (redis : RedisClientShape)
    (rk v : String) (eff : WriteEffect)
    (h : writeAttempt cfg redis rk v = Except.ok eff) :
    effKey eff = rk ∧ effVal eff = v := by
  have hplain : plainSet redis rk v = Except.ok eff →
      effKey eff = rk ∧ effVal eff = v := by
    intro he
    unfold plainSet at he
    split at he
    · exact Except.noConfusion he
    · injection he with h2
      rw [← h2]
      exact ⟨rfl, rfl⟩
  unfold writeAttempt at h
  rcases httlq : cfg.ttl with _ | t
  · rw [httlq] at h
    dsimp only at h
    exact hplain h
  · rw [httlq] at h
    dsimp only at h
    split at h
    · rcases hw : setWithExpiration redis rk v t with e | r
      · rw [hw] at h
        exact Except.noConfusion h
      · rw [hw] at h
        dsimp only at h
        injection h with h2
        rcases setWithExpiration_shape redis rk v t r hw with hr | hr <;>
          rw [← h2, hr] <;> exact ⟨rfl, rfl⟩
    · exact hplain h

theorem applyWrite_self (store : String → Option String) (eff : WriteEffect) :
    applyWrite store eff (effKey eff) = some (effVal eff) := by
  simp [applyWrite]

theorem applyWrite_ne (store : String → Option String) (eff : WriteEffect)
    (k : String) (h : k ≠ effKey eff) : applyWrite store eff k = store k := by
  simp [applyWrite, h]

theorem sessionCacheOf_set_ne (st : SysState) (sid sid2 : String)
    (c : SessionCache JVal) (h : sid2 ≠ sid) :
    sessionCacheOf (setSessionCache st sid c) sid2 = sessionCacheOf st sid2 := by
  unfold sessionCacheOf setSessionCache
  dsimp only
  rw [if_neg h]

theorem readData_fst_congr (cfg : AuthConfig) (st1 st2 : SysState) (key : String)
    (now : Nat)
    (hc : sessionCacheOf st1 cfg.sessionId = sessionCacheOf st2 cfg.sessionId)
    (hs : st1.store (getRedisKey cfg key) = st2.store (getRedisKey cfg key)) :
    (readData cfg st1 key now).1 = (readData cfg st2 key now).1 := by
  show (readDataCore cfg (st1.store (getRedisKey cfg key))
      (sessionCacheOf st1 cfg.sessionId) (getRedisKey cfg key) now).1 =
    (readData cfg st2 key now).1
  rw [hc, hs]
  exact rfl

theorem getCachedData_empty (ec : Bool) (cttl : Nat) (key : String) (now : Nat) :
    getCachedData (α := JVal) ec cttl (fun _ => none) key now =
      (none, fun _ => none) := by
  cases ec <;> simp [getCachedData]

/-- C3: sessions are isolated.  For distinct session ids under the same key
namespace and the same logical key, the namespaced store keys differ, and a
successful write under the first session changes neither the second
session's store entry nor its registry cache, so a read under the second
session returns exactly what it returned before the write — in either
direction, since the sessions are universally quantified. -/
theorem session_isolation (cfg1 cfg2 : AuthConfig) (k : String)
    (hsid : cfg1.sessionId ≠ cfg2.sessionId) (hpfx : cfg1.keyPfx = cfg2.keyPfx) :
    getRedisKey cfg1 k ≠ getRedisKey cfg2 k ∧
    ∀ (redis : RedisClientShape) (st st2 : SysState) (v : JVal) (now now2 : Nat),
      writeData cfg1 redis st v k now = Except.ok st2 →
        st2.store (getRedisKey cfg2 k) = st.store (getRedisKey cfg2 k) ∧
        sessionCacheOf st2 cfg2.sessionId = sessionCacheOf st cfg2.sessionId ∧
        (readData cfg2 st2 k now2).1 = (readData cfg2 st k now2).1 := by
  have hkey : getRedisKey cfg1 k ≠ getRedisKey cfg2 k := by
    intro heq
    apply hsid
    have h1 := congrArg String.data heq
    simp only [getRedisKey, hpfx, String.data_append, List.append_assoc] at h1
    have h2 := List.append_cancel_left h1
    have h3 := List.append_cancel_right h2
    have h4 := congrArg String.mk h3
    rw [string_mk_data, string_mk_data] at h4
    exact h4
  refine ⟨hkey, ?_⟩
  intro redis st st2 v now now2 hw
  simp only [writeData] at hw
  rcases ha : writeAttempt cfg1 redis (getRedisKey cfg1 k) (fastSerialize v)
      with e | eff
  · rw [ha] at hw
    exact Except.noConfusion hw
  · rw [ha] at hw
    dsimp only at hw
    injection hw with hw2
    subst hw2
    obtain ⟨hek, hev⟩ :=
      writeAttempt_shape cfg1 redis (getRedisKey cfg1 k) (fastSerialize v) eff ha
    have hstore : applyWrite st.store eff (getRedisKey cfg2 k) =
        st.store (getRedisKey cfg2 k) := by
      apply applyWrite_ne
      intro e2
      rw [hek] at e2
      exact hkey e2.symm
    have hcache : sessionCacheOf
        (setSessionCache st cfg1.sessionId
          (setCachedData cfg1.enableCache (sessionCacheOf st cfg1.sessionId)
            (getRedisKey cfg1 k) v now)) cfg2.sessionId =
        sessionCacheOf st cfg2.sessionId :=
      sessionCacheOf_set_ne st cfg1.sessionId cfg2.sessionId _
        (fun e2 => hsid e2.symm)
    exact ⟨hstore, hcache,
      readData_fst_congr cfg2 _ st k now2 hcache hstore⟩

def emptySys : SysState :=
  SysState.mk (fun _ => none) (fun _ => none) (fun _ => none)

def plainClient : RedisClientShape :=
  RedisClientShape.mk "Foo" false false false false false true false false

def cfgS1 : AuthConfig :=
  AuthConfig.mk "p:" "s1" none CompressionMode.off false 0 0 false true 30000

def cfgS2 : AuthConfig :=
  AuthConfig.mk "p:" "s2" none CompressionMode.off false 0 0 false true 30000

def stAfterS1 : SysState :=
  SysState.mk
    (applyWrite emptySys.store
      (WriteEffect.plain (getRedisKey cfgS1 "creds") (fastSerialize JVal.jnull)))
    ((setSessionCache emptySys "s1"
      (setCachedData true (sessionCacheOf emptySys "s1")
        (getRedisKey cfgS1 "creds") JVal.jnull 0)).sessionCaches)
    emptySys.sessionPools

/-- C3 witness: a concrete write of the logical key `creds` under session
`s1` leaves session `s2`'s store entry, registry cache and read result
untouched. -/
theorem session_isolation_witness :
    getRedisKey cfgS1 "creds" ≠ getRedisKey cfgS2 "creds" ∧
    writeData cfgS1 plainClient emptySys JVal.jnull "creds" 0 =
      Except.ok stAfterS1 ∧
    stAfterS1.store (getRedisKey cfgS2 "creds") =
      emptySys.store (getRedisKey cfgS2 "creds") ∧
    sessionCacheOf stAfterS1 "s2" = sessionCacheOf emptySys "s2" ∧
    (readData cfgS2 stAfterS1 "creds" 0).1 =
      (readData cfgS2 emptySys "creds" 0).1 := by
  have h := session_isolation cfgS1 cfgS2 "creds" (by decide) rfl
  have hw : writeData cfgS1 plainClient emptySys JVal.jnull "creds" 0 =
      Except.ok stAfterS1 := rfl
  have h2 := h.2 plainClient emptySys stAfterS1 JVal.jnull 0 0 hw
  exact ⟨h.1, hw, h2.1, h2.2.1, h2.2.2⟩

/-- C9: `cleanupSession` is a local-only teardown.  After any successful
write, cleaning up the session leaves the remote store pointwise unchanged
(no delete is issued), removes the session's cache registry entry and its
pool registry entry, and a subsequent read for the same session — which
after re-open starts from the fresh empty cache `getSessionCache` registers —
still finds the previously written value in the store. -/
theorem cleanupSession_local_only (cfg : AuthConfig) (redis : RedisClientShape)
    (st st2 : SysState) (v : JVal) (k : String) (now now2 : Nat)
    (hv : fastGood v = true)
    (hw : writeData cfg redis st v k now = Except.ok st2) :
    (cleanupSession st2 cfg.sessionId).store = st2.store ∧
    (cleanupSession st2 cfg.sessionId).sessionCaches cfg.sessionId = none ∧
    (cleanupSession st2 cfg.sessionId).sessionPools cfg.sessionId = none ∧
    (readData cfg (cleanupSession st2 cfg.sessionId) k now2).1 = some v := by
  have hfr : (cleanupSession st2 cfg.sessionId).store = st2.store := by
    simp only [cleanupSession]
    split <;> rfl
  have hcache : (cleanupSession st2 cfg.sessionId).sessionCaches cfg.sessionId =
      none := by
    simp only [cleanupSession]
    split <;> simp
  have hpool : (cleanupSession st2 cfg.sessionId).sessionPools cfg.sessionId =
      none := by
    simp only [cleanupSession]
    split
    · simp
    · next hp => exact hp
  have hcof : sessionCacheOf (cleanupSession st2 cfg.sessionId) cfg.sessionId =
      fun _ => none := by
    unfold sessionCacheOf
    rw [hcache]
  have hown : st2.store (getRedisKey cfg k) = some (fastSerialize v) := by
    simp only [writeData] at hw
    rcases ha : writeAttempt cfg redis (getRedisKey cfg k) (fastSerialize v)
        with e | eff
    · rw [ha] at hw
      exact Except.noConfusion hw
    · rw [ha] at hw
      dsimp only at hw
      injection hw with hw2
      subst hw2
      obtain ⟨hek, hev⟩ :=
        writeAttempt_shape cfg redis (getRedisKey cfg k) (fastSerialize v) eff ha
      show applyWrite st.store eff (getRedisKey cfg k) = some (fastSerialize v)
      rw [← hek, ← hev]
      exact applyWrite_self st.store eff
  refine ⟨hfr, hcache, hpool, ?_⟩
  have h3 : (readData cfg (cleanupSession st2 cfg.sessionId) k now2).1 =
      (readDataCore cfg (some (fastSerialize v)) (fun _ => none)
        (getRedisKey cfg k) now2).1 := by
    show (readDataCore cfg
        ((cleanupSession st2 cfg.sessionId).store (getRedisKey cfg k))
        (sessionCacheOf (cleanupSession st2 cfg.sessionId) cfg.sessionId)
        (getRedisKey cfg k) now2).1 = _
    rw [hfr, hcof, hown]
  rw [h3]
  unfold readDataCore
  rw [getCachedData_empty]
  dsimp only
  rw [if_neg (fastSerialize_ne_empty v)]
  rw [fastDeserialize_fastSerialize v hv]

def cfgC9 : AuthConfig :=
  AuthConfig.mk "p:" "s" none CompressionMode.off false 0 0 false true 30000

def stAfterC9 : SysState :=
  SysState.mk
    (applyWrite emptySys.store
      (WriteEffect.plain (getRedisKey cfgC9 "creds")
        (fastSerialize (JVal.jbin [1, 255, 0]))))
    ((setSessionCache emptySys "s"
      (setCachedData true (sessionCacheOf emptySys "s")
        (getRedisKey cfgC9 "creds") (JVal.jbin [1, 255, 0]) 0)).sessionCaches)
    emptySys.sessionPools

/-- C9 witness: after writing a binary payload and tearing the session down,
the store is untouched, the registries are cleared, and a fresh read still
returns the payload. -/
theorem cleanupSession_local_only_witness :
    (cleanupSession stAfterC9 "s").store = stAfterC9.store ∧
    (cleanupSession stAfterC9 "s").sessionCaches "s" = none ∧
    (cleanupSession stAfterC9 "s").sessionPools "s" = none ∧
    (readData cfgC9 (cleanupSession stAfterC9 "s") "creds" 99).1 =
      some (JVal.jbin [1, 255, 0]) := by
  have hw : writeData cfgC9 plainClient emptySys (JVal.jbin [1, 255, 0])
      "creds" 0 = Except.ok stAfterC9 := rfl
  exact cleanupSession_local_only cfgC9 plainClient emptySys stAfterC9
    (JVal.jbin [1, 255, 0]) "creds" 0 99 rfl hw

/-- C10: the `compression`, `enableBatching`, `batchSize` and
`memoryEfficient` options are observably dead.  Two configurations equal in
every other option produce identical `writeData` results (same store bytes,
same cache, same error behavior) and identical `readData` results; moreover
the bytes a successful write stores under the namespaced key are always the
plain `fastSerialize` output, with no compression stage and no use of the
batch manager on either path. -/
theorem options_no_effect (cfg1 cfg2 : AuthConfig)
    (hpfx : cfg1.keyPfx = cfg2.keyPfx) (hsid : cfg1.sessionId = cfg2.sessionId)
    (httlq : cfg1.ttl = cfg2.ttl) (hpool : cfg1.poolSize = cfg2.poolSize)
    (hec : cfg1.enableCache = cfg2.enableCache)
    (hct : cfg1.cacheTTL = cfg2.cacheTTL) :
    (∀ (redis : RedisClientShape) (st : SysState) (v : JVal) (k : String)
        (now : Nat),
      writeData cfg1 redis st v k now = writeData cfg2 redis st v k now ∧
      ∀ st2, writeData cfg1 redis st v k now = Except.ok st2 →
        st2.store (getRedisKey cfg1 k) = some (fastSerialize v)) ∧
    (∀ (st : SysState) (k : String) (now : Nat),
      readData cfg1 st k now = readData cfg2 st k now) := by
  obtain ⟨p1, s1, t1, c1, b1, bs1, ps1, m1, ec1, ct1⟩ := cfg1
  obtain ⟨p2, s2, t2, c2, b2, bs2, ps2, m2, ec2, ct2⟩ := cfg2
  dsimp only at hpfx hsid httlq hpool hec hct
  subst hpfx
  subst hsid
  subst httlq
  subst hpool
  subst hec
  subst hct
  refine ⟨fun redis st v k now => ⟨rfl, ?_⟩, fun st k now => rfl⟩
  intro st2 hw
  simp only [writeData] at hw
  rcases ha : writeAttempt
      (AuthConfig.mk p1 s1 t1 c1 b1 bs1 ps1 m1 ec1 ct1) redis
      (getRedisKey (AuthConfig.mk p1 s1 t1 c1 b1 bs1 ps1 m1 ec1 ct1) k)
      (fastSerialize v) with e | eff
  · rw [ha] at hw
    exact Except.noConfusion hw
  · rw [ha] at hw
    dsimp only at hw
    injection hw with hw2
    subst hw2
    obtain ⟨hek, hev⟩ := writeAttempt_shape _ redis _ (fastSerialize v) eff ha
    show applyWrite st.store eff _ = some (fastSerialize v)
    rw [← hek, ← hev]
    exact applyWrite_self st.store eff

def cfgOptsA : AuthConfig :=
  AuthConfig.mk "p:" "s" (some 60) CompressionMode.lz4 true 100 10 true true 30000

def cfgOptsB : AuthConfig :=
  AuthConfig.mk "p:" "s" (some 60) CompressionMode.off false 5 10 false true 30000

def ioredisClient : RedisClientShape :=
  RedisClientShape.mk "Redis" true true false false false true false false

def stAfterOpts : SysState :=
  SysState.mk
    (applyWrite emptySys.store
      (WriteEffect.expiry (getRedisKey cfgOptsA "creds")
        (fastSerialize JVal.jnull) 60))
    ((setSessionCache emptySys "s"
      (setCachedData true (sessionCacheOf emptySys "s")
        (getRedisKey cfgOptsA "creds") JVal.jnull 0)).sessionCaches)
    emptySys.sessionPools

/-- C10 witness: two configurations that differ in `compression`,
`enableBatching`, `batchSize` and `memoryEfficient` all at once produce the
same write and the same read, and the stored bytes are the plain
`fastSerialize` output. -/
theorem options_no_effect_witness :
    writeData cfgOptsA ioredisClient emptySys JVal.jnull "creds" 0 =
      writeData cfgOptsB ioredisClient emptySys JVal.jnull "creds" 0 ∧
    writeData cfgOptsA ioredisClient emptySys JVal.jnull "creds" 0 =
      Except.ok stAfterOpts ∧
    stAfterOpts.store (getRedisKey cfgOptsA "creds") =
      some (fastSerialize JVal.jnull) ∧
    readData cfgOptsA emptySys "creds" 0 =
      readData cfgOptsB emptySys "creds" 0 := by
  have h := options_no_effect cfgOptsA cfgOptsB rfl rfl rfl rfl rfl rfl
  have hw : writeData cfgOptsA ioredisClient emptySys JVal.jnull "creds" 0 =
      Except.ok stAfterOpts := rfl
  have h1 := h.1 ioredisClient emptySys JVal.jnull "creds" 0
  exact ⟨h1.1, hw, h1.2 stAfterOpts hw, h.2 emptySys "creds" 0⟩
